import Mathlib

/-!
# Verification of the wickd second-quantization engine specification

The repository ships the public interface of the engine
(`src/algebra/expression.h`, `src/diagrams/operator_product.h`); the
implementation files of `Expression` and `OperatorProduct` are not part of the
sources, so the algorithms below are modelled from the specification
(`spec.md`), faithful to its data model (§3) and component contracts
(§4.1–§4.3), with every interpretation choice recorded in the doc comments.
The vacuum convention is fixed by the header of
`Expression::vacuum_normal_ordered`: all bare annihilation operators are
placed to the left of the bare creation operators.
-/

/-- Modelled from the spec (§3 Index): field type of an orbital subspace,
fermionic or bosonic. -/
inductive FieldType where
  | fermion : FieldType
  | boson : FieldType
deriving DecidableEq, Repr

/-- Modelled from the spec (§3 Index): space type of an orbital subspace. -/
inductive SpaceType where
  | occupied : SpaceType
  | unoccupied : SpaceType
  | general : SpaceType
deriving DecidableEq, Repr

/-- Modelled from the spec (§3 Operator): an operator is a creation or an
annihilation operator. -/
inductive OperatorKind where
  | creation : OperatorKind
  | annihilation : OperatorKind
deriving DecidableEq, Repr

/-- Modelled from the spec (§3 SymbolicTerm): declared index-permutation
symmetry of a tensor factor. -/
inductive SymmetryType where
  | nonsymmetric : SymmetryType
  | symmetric : SymmetryType
  | antisymmetric : SymmetryType
deriving DecidableEq, Repr

/-- Modelled from the spec (§3 Index): an elementary symbol made of a
subspace label (a character), an ordinal, a field type and a space type.
Two indices are equal iff all fields are equal (structural equality). -/
structure Index where
  label : Char
  ordinal : Nat
  field : FieldType
  space : SpaceType
deriving DecidableEq, Repr

/-- Modelled from the spec (§3 Operator): one creation or annihilation
operator bound to an Index. -/
structure Operator where
  kind : OperatorKind
  index : Index
deriving DecidableEq, Repr

/-- Modelled from the spec (§3 SymbolicTerm): a tensor factor with a label,
a declared symmetry and ordered sequences of upper and lower indices. -/
structure TensorFactor where
  label : Char
  symmetry : SymmetryType
  upper : List Index
  lower : List Index
deriving DecidableEq, Repr

/-- Modelled from the spec (§3 SymbolicTerm, §9 open question on the scalar
type, resolved as recommended to exact rational arithmetic): a scalar
coefficient, an ordered sequence of tensor factors and an operator string
(the OperatorProduct is the plain sequence `ops`; per §3 it stores no sign). -/
structure SymbolicTerm where
  coeff : ℚ
  tensors : List TensorFactor
  ops : List Operator
deriving DecidableEq, Repr

/-- Modelled from the spec (§3 Expression): a formal sum, an ordered
collection of SymbolicTerms. -/
structure Expression where
  terms : List SymbolicTerm
deriving DecidableEq, Repr

/-! ## Ranks and ordering keys

The spec (§3) orders indices by (space type, label, ordinal) and operators by
the derived key (field type, kind priority, Index).  The engine's only active
normal ordering is the true-vacuum one (the Fermi-vacuum `normal_ordered` is
commented out in `expression.h`), so the kind priority is uniform:
annihilation operators sort before creation operators, matching the header's
"annihilation to the left of creation" convention. -/

/-- Rank used to order field types (fermionic operators first). -/
def FieldType.rank : FieldType → Nat
  | FieldType.fermion => 0
  | FieldType.boson => 1

/-- Rank used to order space types (occupied, unoccupied, general). -/
def SpaceType.rank : SpaceType → Nat
  | SpaceType.occupied => 0
  | SpaceType.unoccupied => 1
  | SpaceType.general => 2

/-- Modelled from the spec: annihilation operators precede creation operators
in the canonical key order (vacuum convention of `expression.h`). -/
def OperatorKind.rank : OperatorKind → Nat
  | OperatorKind.annihilation => 0
  | OperatorKind.creation => 1

/-- Rank used to order symmetry types. -/
def SymmetryType.rank : SymmetryType → Nat
  | SymmetryType.nonsymmetric => 0
  | SymmetryType.symmetric => 1
  | SymmetryType.antisymmetric => 2

/-- Modelled from the spec (§3): ordering key of an Index,
(space type, label, ordinal), completed by the field type for injectivity. -/
def Index.key (i : Index) : List Nat :=
  [i.space.rank, i.label.toNat, i.ordinal, i.field.rank]

/-- Modelled from the spec (§3): derived ordering key of an Operator,
(field type, kind priority, Index). -/
def Operator.key (o : Operator) : List Nat :=
  o.index.field.rank :: o.kind.rank :: o.index.key

/-- Lexicographic strict comparison of two lists of naturals. -/
def natListLt : List Nat → List Nat → Bool
  | [], [] => false
  | [], _ :: _ => true
  | _ :: _, [] => false
  | a :: l, b :: m => a < b || (a = b && natListLt l m)

/-- Lexicographic non-strict comparison of two lists of naturals. -/
def natListLe (l m : List Nat) : Bool :=
  l = m || natListLt l m

/-- Ordering test for two operators, by their canonical keys. -/
def opLe (a b : Operator) : Bool :=
  natListLe a.key b.key

/-! ## Basic facts about the lexicographic key order -/

theorem natListLt_irrefl (l : List Nat) : natListLt l l = false := by
  induction l with
  | nil => rfl
  | cons a l ih => simp [natListLt, ih]

theorem natListLt_trans {l m k : List Nat} (h1 : natListLt l m = true)
    (h2 : natListLt m k = true) : natListLt l k = true := by
  induction l generalizing m k with
  | nil =>
    cases m with
    | nil => simp [natListLt] at h1
    | cons b mt => cases k with
      | nil => simp [natListLt] at h2
      | cons c kt => rfl
  | cons a lt ih =>
    cases m with
    | nil => simp [natListLt] at h1
    | cons b mt =>
      cases k with
      | nil => simp [natListLt] at h2
      | cons c kt =>
        simp only [natListLt, Bool.or_eq_true, Bool.and_eq_true, decide_eq_true_eq] at h1 h2 ⊢
        rcases h1 with h1 | ⟨rfl, h1⟩
        · rcases h2 with h2 | ⟨rfl, h2⟩
          · exact Or.inl (Nat.lt_trans h1 h2)
          · exact Or.inl h1
        · rcases h2 with h2 | ⟨rfl, h2⟩
          · exact Or.inl h2
          · exact Or.inr ⟨rfl, ih h1 h2⟩

theorem natListLt_connex (l m : List Nat) (h1 : natListLt l m = false)
    (h2 : natListLt m l = false) : l = m := by
  induction l generalizing m with
  | nil => cases m with
    | nil => rfl
    | cons b mt => simp [natListLt] at h1
  | cons a lt ih =>
    cases m with
    | nil => simp [natListLt] at h2
    | cons b mt =>
      simp only [natListLt, Bool.or_eq_false_iff, Bool.and_eq_false_iff,
        decide_eq_false_iff_not] at h1 h2
      have hab : a = b := by omega
      subst hab
      rcases h1.2 with h | h
      · simp at h
      · rcases h2.2 with h' | h'
        · simp at h'
        · rw [ih mt h h']

theorem natListLe_refl (l : List Nat) : natListLe l l = true := by
  simp [natListLe]

theorem natListLe_trans {l m k : List Nat} (h1 : natListLe l m = true)
    (h2 : natListLe m k = true) : natListLe l k = true := by
  simp only [natListLe, Bool.or_eq_true, decide_eq_true_eq] at h1 h2 ⊢
  rcases h1 with rfl | h1
  · exact h2
  · rcases h2 with rfl | h2
    · exact Or.inr h1
    · exact Or.inr (natListLt_trans h1 h2)

theorem natListLe_antisymm {l m : List Nat} (h1 : natListLe l m = true)
    (h2 : natListLe m l = true) : l = m := by
  simp only [natListLe, Bool.or_eq_true, decide_eq_true_eq] at h1 h2
  rcases h1 with rfl | h1
  · rfl
  · rcases h2 with rfl | h2
    · rfl
    · cases natListLt_irrefl l ▸ natListLt_trans h1 h2

theorem natListLe_total (l m : List Nat) :
    natListLe l m = true ∨ natListLe m l = true := by
  by_cases h1 : natListLt l m = true
  · exact Or.inl (by simp [natListLe, h1])
  · by_cases h2 : natListLt m l = true
    · exact Or.inr (by simp [natListLe, h2])
    · left
      have := natListLt_connex l m (by simpa using h1) (by simpa using h2)
      simp [natListLe, this]

theorem natListLt_of_le_of_ne {l m : List Nat} (h1 : natListLe l m = true)
    (h2 : l ≠ m) : natListLt l m = true := by
  simp only [natListLe, Bool.or_eq_true, decide_eq_true_eq] at h1
  rcases h1 with rfl | h1
  · exact absurd rfl h2
  · exact h1

/-! ## Injectivity of the keys -/

theorem fieldRank_inj {a b : FieldType} (h : a.rank = b.rank) : a = b := by
  cases a <;> cases b <;> simp [FieldType.rank] at h ⊢

theorem spaceRank_inj {a b : SpaceType} (h : a.rank = b.rank) : a = b := by
  cases a <;> cases b <;> simp [SpaceType.rank] at h ⊢

theorem kindRank_inj {a b : OperatorKind} (h : a.rank = b.rank) : a = b := by
  cases a <;> cases b <;> simp [OperatorKind.rank] at h ⊢

theorem Char.toNat_inj_custom {a b : Char} (h : a.toNat = b.toNat) : a = b := by
  apply Char.ext
  apply UInt32.toNat.inj h

theorem indexKey_inj {i j : Index} (h : i.key = j.key) : i = j := by
  simp only [Index.key, List.cons.injEq, and_true] at h
  obtain ⟨h1, h2, h3, h4⟩ := h
  cases i; cases j
  simp only [Index.mk.injEq]
  exact ⟨Char.toNat_inj_custom h2, h3, fieldRank_inj h4, spaceRank_inj h1⟩

theorem opKey_inj {o p : Operator} (h : o.key = p.key) : o = p := by
  simp only [Operator.key, List.cons.injEq] at h
  obtain ⟨h1, h2, h3⟩ := h
  cases o; cases p
  simp only [Operator.mk.injEq]
  exact ⟨kindRank_inj h2, indexKey_inj h3⟩

theorem opLe_refl (a : Operator) : opLe a a = true := natListLe_refl _

theorem opLe_trans {a b c : Operator} (h1 : opLe a b = true)
    (h2 : opLe b c = true) : opLe a c = true := natListLe_trans h1 h2

theorem opLe_antisymm {a b : Operator} (h1 : opLe a b = true)
    (h2 : opLe b a = true) : a = b :=
  opKey_inj (natListLe_antisymm h1 h2)

theorem opLe_total (a b : Operator) : opLe a b = true ∨ opLe b a = true :=
  natListLe_total _ _

/-! ## Injective encodings of operator strings and tensor lists

The canonical sort of terms (§4.3) and the merge of equal-signature terms
need a total order on pairs (operator-string key, tensor-factor key).  Each
structure is encoded injectively into a natural number through `Nat.pair`;
the term order is then the lexicographic order on the encoded pair. -/

/-- Injective encoding of a list of naturals. -/
def encList : List Nat → Nat
  | [] => 0
  | a :: l => Nat.pair a (encList l) + 1

theorem encList_inj : ∀ {l m : List Nat}, encList l = encList m → l = m := by
  intro l
  induction l with
  | nil => intro m h; cases m with
    | nil => rfl
    | cons b mt => simp [encList] at h
  | cons a lt ih =>
    intro m h
    cases m with
    | nil => simp [encList] at h
    | cons b mt =>
      simp only [encList, Nat.add_right_cancel_iff, Nat.pair_eq_pair] at h
      rw [h.1, ih h.2]

/-- Encoding of one operator (its canonical key packed into one natural). -/
def Operator.enc (o : Operator) : Nat := encList o.key

/-- Encoding of an operator string, the per-operator keys in sequence. -/
def opsEnc (ops : List Operator) : Nat := encList (ops.map Operator.enc)

/-- Encoding of one index. -/
def Index.enc (i : Index) : Nat := encList i.key

/-- Encoding of one tensor factor: label, symmetry and both index lists. -/
def TensorFactor.enc (T : TensorFactor) : Nat :=
  encList [T.label.toNat, T.symmetry.rank,
    encList (T.upper.map Index.enc), encList (T.lower.map Index.enc)]

/-- Encoding of a tensor factor list. -/
def tensorsEnc (Ts : List TensorFactor) : Nat := encList (Ts.map TensorFactor.enc)

theorem opEnc_inj {o p : Operator} (h : o.enc = p.enc) : o = p :=
  opKey_inj (encList_inj h)

theorem opsEnc_inj {l m : List Operator} (h : opsEnc l = opsEnc m) : l = m :=
  List.map_injective_iff.mpr (fun _ _ => opEnc_inj) (encList_inj h)

theorem idxEnc_inj {i j : Index} (h : i.enc = j.enc) : i = j :=
  indexKey_inj (encList_inj h)

theorem symRank_inj {a b : SymmetryType} (h : a.rank = b.rank) : a = b := by
  cases a <;> cases b <;> simp [SymmetryType.rank] at h ⊢

theorem tensorEnc_inj {T U : TensorFactor} (h : T.enc = U.enc) : T = U := by
  have h' := encList_inj h
  simp only [List.cons.injEq, and_true] at h'
  obtain ⟨h1, h2, h3, h4⟩ := h'
  cases T; cases U
  simp only [TensorFactor.mk.injEq]
  refine ⟨Char.toNat_inj_custom h1, symRank_inj h2, ?_, ?_⟩
  · exact List.map_injective_iff.mpr (fun _ _ => idxEnc_inj) (encList_inj h3)
  · exact List.map_injective_iff.mpr (fun _ _ => idxEnc_inj) (encList_inj h4)

theorem tensorsEnc_inj {l m : List TensorFactor} (h : tensorsEnc l = tensorsEnc m) :
    l = m :=
  List.map_injective_iff.mpr (fun _ _ => tensorEnc_inj) (encList_inj h)

/-- Modelled from the spec (§3 Expression invariant): the canonical key of a
term for the total order "(operator-string canonical key, tensor-factor
canonical key)"; the coefficient does not participate. -/
def termKey (t : SymbolicTerm) : List Nat := [opsEnc t.ops, tensorsEnc t.tensors]

/-- The canonical (tensor-factor pattern, operator string) signature of a term
(§3 Expression invariant); terms with equal signature are merged. -/
def termSig (t : SymbolicTerm) : List TensorFactor × List Operator :=
  (t.tensors, t.ops)

theorem termKey_eq_iff_sig_eq {s t : SymbolicTerm} :
    termKey s = termKey t ↔ termSig s = termSig t := by
  constructor
  · intro h
    simp only [termKey, List.cons.injEq, and_true] at h
    simp only [termSig, Prod.mk.injEq]
    exact ⟨tensorsEnc_inj h.2, opsEnc_inj h.1⟩
  · intro h
    simp only [termSig, Prod.mk.injEq] at h
    simp [termKey, h.1, h.2]

/-- Ordering test for terms by their canonical keys. -/
def termLe (s t : SymbolicTerm) : Bool := natListLe (termKey s) (termKey t)

/-- Strict ordering test for terms by their canonical keys. -/
def termLt (s t : SymbolicTerm) : Bool := natListLt (termKey s) (termKey t)

/-! ## Signed sorting of operator strings (§4.1)

`OperatorProduct::canonicalize` reorders operators into the canonical key
order by adjacent transpositions.  A swap of two fermionic operators flips
the sign; bosonic (and mixed-field) swaps leave it unchanged.  The two
non-sorting cases of §4.1 — a repeated fermionic operator (Pauli exclusion)
and an out-of-order bosonic creation/annihilation pair with equal index
(a contraction outside the Wick context) — are detected by the predicates
`hasPauli` and `hasBosonCollision` below before any sorting happens, so the
signed insertion sort itself is total. -/

/-- Sign contributed by swapping two adjacent operators (§4.1): −1 when both
are fermionic, +1 otherwise (bosonic and mixed-field operators commute). -/
def swapSign (a b : Operator) : Int :=
  if a.index.field = FieldType.fermion ∧ b.index.field = FieldType.fermion then -1 else 1

/-- Signed insertion of an operator into a sorted operator string: the sign
accumulates one `swapSign` per operator that `a` moves past. -/
def insertOpSigned (a : Operator) : List Operator → Int × List Operator
  | [] => (1, [a])
  | b :: l =>
    if opLe a b then (1, a :: b :: l)
    else
      let r := insertOpSigned a l
      (r.1 * swapSign a b, b :: r.2)

/-- Modelled from the spec (§4.1): adjacent-transposition sort of an operator
string (realised as insertion sort), returning the accumulated sign and the
string sorted by the canonical key order. -/
def sortOpsSigned : List Operator → Int × List Operator
  | [] => (1, [])
  | a :: l =>
    let r := sortOpsSigned l
    let r2 := insertOpSigned a r.2
    (r.1 * r2.1, r2.2)

/-- The canonical-order relation on operators, as a proposition. -/
def OpLeR (a b : Operator) : Prop := opLe a b = true

instance : DecidableRel OpLeR := fun a b => decEq (opLe a b) true

instance : IsTrans Operator OpLeR := ⟨fun _ _ _ => opLe_trans⟩

instance : IsAntisymm Operator OpLeR := ⟨fun _ _ => opLe_antisymm⟩

instance : IsTotal Operator OpLeR := ⟨opLe_total⟩

open List in
theorem insertOpSigned_perm (a : Operator) (l : List Operator) :
    (insertOpSigned a l).2 ~ a :: l := by
  induction l with
  | nil => simp [insertOpSigned]
  | cons b l ih =>
    by_cases h : opLe a b
    · simp [insertOpSigned, h]
    · simp only [insertOpSigned, h, if_false]
      calc b :: (insertOpSigned a l).2 ~ b :: a :: l := ih.cons b
        _ ~ a :: b :: l := List.Perm.swap a b l

open List in
theorem sortOpsSigned_perm (l : List Operator) : (sortOpsSigned l).2 ~ l := by
  induction l with
  | nil => simp [sortOpsSigned]
  | cons a l ih =>
    simp only [sortOpsSigned]
    calc (insertOpSigned a (sortOpsSigned l).2).2
        ~ a :: (sortOpsSigned l).2 := insertOpSigned_perm _ _
      _ ~ a :: l := ih.cons a

theorem insertOpSigned_sorted {a : Operator} {l : List Operator}
    (h : l.Sorted OpLeR) : (insertOpSigned a l).2.Sorted OpLeR := by
  induction l with
  | nil => simp [insertOpSigned, List.Sorted]
  | cons b l ih =>
    by_cases hab : opLe a b
    · simp only [insertOpSigned, hab, if_true]
      refine List.sorted_cons.mpr ⟨?_, h⟩
      intro c hc
      rcases List.mem_cons.mp hc with rfl | hc'
      · exact hab
      · exact opLe_trans hab (List.rel_of_sorted_cons h c hc')
    · simp only [insertOpSigned, hab, if_false]
      have hba : opLe b a = true := (opLe_total a b).resolve_left (by simpa using hab)
      refine List.sorted_cons.mpr ⟨?_, ih (List.sorted_cons.mp h).2⟩
      intro c hc
      have hc2 := (insertOpSigned_perm a l).mem_iff.mp hc
      rcases List.mem_cons.mp hc2 with rfl | hc'
      · exact hba
      · exact List.rel_of_sorted_cons h c hc'

theorem sortOpsSigned_sorted (l : List Operator) :
    (sortOpsSigned l).2.Sorted OpLeR := by
  induction l with
  | nil => simp [sortOpsSigned, List.Sorted]
  | cons a l ih => exact insertOpSigned_sorted ih

theorem sortOpsSigned_of_sorted : {l : List Operator} → l.Sorted OpLeR →
    sortOpsSigned l = (1, l) := by
  intro l h
  induction l with
  | nil => rfl
  | cons a l ih =>
    have ht := ih (List.sorted_cons.mp h).2
    simp only [sortOpsSigned, ht]
    cases l with
    | nil => rfl
    | cons b m =>
      have hab : opLe a b = true := List.rel_of_sorted_cons h b (by simp)
      simp [insertOpSigned, hab]

/-- Sorting is determined by the multiset of operators. -/
theorem sortOpsSigned_eq_of_perm {l m : List Operator} (h : l.Perm m) :
    (sortOpsSigned l).2 = (sortOpsSigned m).2 :=
  List.eq_of_perm_of_sorted
    (((sortOpsSigned_perm l).trans h).trans (sortOpsSigned_perm m).symm)
    (sortOpsSigned_sorted l) (sortOpsSigned_sorted m)

/-! ## Generic signed insertion sort and permutation parity

Both §4.1 (operator strings, where a transposition of two adjacent fermionic
operators contributes −1) and §4.3 step 2 (the slots of an antisymmetric
tensor factor, where every transposition contributes −1) sort a list by a
`List Nat` key while accumulating a sign.  The two instances share this
generic development: a signed insertion sort over a key function and an
"odd" predicate marking the sign-carrying elements, the identification of
the accumulated sign with the parity of the number of odd-pair inversions,
and the composition law for that parity under an injective relabeling — the
fact making the sign of the canonical representative stable under
re-canonicalization. -/

theorem natListLt_asymm {l m : List Nat} (h : natListLt l m = true) :
    natListLt m l = false := by
  rcases hc : natListLt m l with _ | _
  · rfl
  · cases natListLt_irrefl l ▸ natListLt_trans h hc

theorem natListLe_false_iff {l m : List Nat} :
    natListLe l m = false ↔ natListLt m l = true := by
  constructor
  · intro h
    simp only [natListLe, Bool.or_eq_false_iff, decide_eq_false_iff_not] at h
    rcases hc : natListLt m l with _ | _
    · exact absurd (natListLt_connex l m h.2 hc) h.1
    · rfl
  · intro h
    simp only [natListLe, Bool.or_eq_false_iff, decide_eq_false_iff_not]
    refine ⟨?_, natListLt_asymm h⟩
    intro he
    subst he
    rw [natListLt_irrefl] at h
    exact absurd h (by simp)

theorem natListLt_false_of_le {l m : List Nat} (h : natListLe l m = true) :
    natListLt m l = false := by
  rcases hc : natListLt m l with _ | _
  · rfl
  · have h2 := natListLe_false_iff.mpr hc
    rw [h2] at h
    exact absurd h (by simp)

section SignedSort

variable {α : Type} (key : α → List Nat) (odd : α → Bool)

/-- Sortedness of a list with respect to the `List Nat` key. -/
@[reducible] def KeySorted (l : List α) : Prop :=
  l.Pairwise (fun x y => natListLe (key x) (key y) = true)

/-- Generic signed insertion into a key-sorted list: each element the new
element moves past contributes −1 when both are odd. -/
def sInsert (a : α) : List α → Int × List α
  | [] => (1, [a])
  | b :: l =>
    if natListLe (key a) (key b) then (1, a :: b :: l)
    else
      let r := sInsert a l
      (r.1 * (if odd a && odd b then -1 else 1), b :: r.2)

/-- Generic signed insertion sort. -/
def sSort : List α → Int × List α
  | [] => (1, [])
  | a :: l =>
    let r := sSort l
    let r2 := sInsert key odd a r.2
    (r.1 * r2.1, r2.2)

theorem sInsert_perm (a : α) (l : List α) :
    (sInsert key odd a l).2.Perm (a :: l) := by
  induction l with
  | nil => simp [sInsert]
  | cons b l ih =>
    by_cases h : natListLe (key a) (key b)
    · simp [sInsert, h]
    · simp only [sInsert, h, if_false]
      exact (ih.cons b).trans (List.Perm.swap a b l)

theorem sSort_perm (l : List α) : (sSort key odd l).2.Perm l := by
  induction l with
  | nil => simp [sSort]
  | cons a l ih =>
    simp only [sSort]
    exact (sInsert_perm key odd a (sSort key odd l).2).trans (ih.cons a)

theorem sInsert_sorted {a : α} {l : List α} (h : KeySorted key l) :
    KeySorted key (sInsert key odd a l).2 := by
  induction l with
  | nil => simp [sInsert, KeySorted]
  | cons b l ih =>
    by_cases hab : natListLe (key a) (key b)
    · simp only [sInsert, hab, if_true]
      refine List.pairwise_cons.mpr ⟨?_, h⟩
      intro c hc
      rcases List.mem_cons.mp hc with rfl | hc'
      · exact hab
      · exact natListLe_trans hab ((List.pairwise_cons.mp h).1 c hc')
    · simp only [sInsert, hab, if_false]
      have hba : natListLe (key b) (key a) = true :=
        (natListLe_total _ _).resolve_left (by simpa using hab)
      refine List.pairwise_cons.mpr ⟨?_, ih (List.pairwise_cons.mp h).2⟩
      intro c hc
      have hc2 := (sInsert_perm key odd a l).mem_iff.mp hc
      rcases List.mem_cons.mp hc2 with rfl | hc'
      · exact hba
      · exact (List.pairwise_cons.mp h).1 c hc'

theorem sSort_sorted (l : List α) : KeySorted key (sSort key odd l).2 := by
  induction l with
  | nil => simp [sSort, KeySorted]
  | cons a l ih => exact sInsert_sorted key odd ih

theorem sSort_of_sorted : {l : List α} → KeySorted key l →
    sSort key odd l = (1, l) := by
  intro l h
  induction l with
  | nil => rfl
  | cons a l ih =>
    have ht := ih (List.pairwise_cons.mp h).2
    simp only [sSort, ht]
    cases l with
    | nil => rfl
    | cons b m =>
      have hab : natListLe (key a) (key b) = true :=
        (List.pairwise_cons.mp h).1 b (by simp)
      simp [sInsert, hab]

theorem keySorted_perm_eq (hkey : ∀ x y : α, key x = key y → x = y) :
    ∀ {l m : List α}, l.Perm m → KeySorted key l → KeySorted key m → l = m := by
  intro l
  induction l with
  | nil =>
    intro m h _ _
    exact h.nil_eq
  | cons a l ih =>
    intro m h hl hm
    cases m with
    | nil => exact absurd h.symm.nil_eq (by simp)
    | cons b m' =>
      have hab : a = b := by
        have hbl : b ∈ a :: l := h.mem_iff.mpr (by simp)
        have ham : a ∈ b :: m' := h.mem_iff.mp (by simp)
        rcases List.mem_cons.mp hbl with rfl | hbl'
        · rfl
        · rcases List.mem_cons.mp ham with heq | ham'
          · exact heq
          · have h1 : natListLe (key a) (key b) = true :=
              (List.pairwise_cons.mp hl).1 b hbl'
            have h2 : natListLe (key b) (key a) = true :=
              (List.pairwise_cons.mp hm).1 a ham'
            exact hkey a b (natListLe_antisymm h1 h2)
      subst hab
      rw [ih h.cons_inv (List.pairwise_cons.mp hl).2 (List.pairwise_cons.mp hm).2]

theorem sSort_snd_eq_of_perm (hkey : ∀ x y : α, key x = key y → x = y)
    {l m : List α} (h : l.Perm m) :
    (sSort key odd l).2 = (sSort key odd m).2 :=
  keySorted_perm_eq key hkey
    (((sSort_perm key odd l).trans h).trans (sSort_perm key odd m).symm)
    (sSort_sorted key odd l) (sSort_sorted key odd m)

/-- The parity sign (−1)ⁿ. -/
def pSign (n : Nat) : Int := if n % 2 = 0 then 1 else -1

theorem pSign_add (m n : Nat) : pSign (m + n) = pSign m * pSign n := by
  unfold pSign
  by_cases hm : m % 2 = 0 <;> by_cases hn : n % 2 = 0
  · rw [if_pos hm, if_pos hn, if_pos (by omega)]
    decide
  · rw [if_pos hm, if_neg hn, if_neg (by omega)]
    decide
  · rw [if_neg hm, if_pos hn, if_neg (by omega)]
    decide
  · rw [if_neg hm, if_neg hn, if_pos (by omega)]
    decide

theorem pSign_congr {m n : Nat} (h : m % 2 = n % 2) : pSign m = pSign n := by
  unfold pSign
  rw [h]

theorem pSign_pm (n : Nat) : pSign n = 1 ∨ pSign n = -1 := by
  unfold pSign
  by_cases h : n % 2 = 0
  · exact Or.inl (if_pos h)
  · exact Or.inr (if_neg h)

/-- Number of odd elements of a list standing strictly below an odd element
`a` in the key order (the inversions `a` contributes when prepended). -/
def sCnt (a : α) (l : List α) : Nat :=
  if odd a then
    (l.filter (fun b => odd b && natListLt (key b) (key a))).length
  else 0

/-- Number of odd-pair inversions of a list in the key order. -/
def sInv : List α → Nat
  | [] => 0
  | a :: l => sCnt key odd a l + sInv l

theorem sCnt_cons (a b : α) (l : List α) :
    sCnt key odd a (b :: l) =
      (if odd a && odd b && natListLt (key b) (key a) then 1 else 0) +
        sCnt key odd a l := by
  unfold sCnt
  by_cases ha : odd a = true
  · rw [if_pos ha, if_pos ha, List.filter_cons]
    by_cases hb : (odd b && natListLt (key b) (key a)) = true
    · rw [if_pos (by simp [hb]), if_pos (by simp [ha, hb])]
      simp [Nat.add_comm]
    · rw [if_neg (by simp [hb] : ¬_), if_neg (by simp [ha, hb] : ¬_)]
      simp
  · rw [if_neg ha, if_neg ha, if_neg (by simp [ha] : ¬_)]

theorem sCnt_eq_of_perm {l m : List α} (h : l.Perm m) (a : α) :
    sCnt key odd a l = sCnt key odd a m := by
  unfold sCnt
  by_cases ha : odd a = true
  · rw [if_pos ha, if_pos ha, (h.filter _).length_eq]
  · rw [if_neg ha, if_neg ha]

theorem sCnt_eq_zero_of_ge {a : α} {l : List α}
    (h : ∀ b ∈ l, natListLe (key a) (key b) = true) :
    sCnt key odd a l = 0 := by
  unfold sCnt
  by_cases ha : odd a = true
  · rw [if_pos ha, List.length_eq_zero, List.filter_eq_nil]
    intro b hb
    have hlt : natListLt (key b) (key a) = false := natListLt_false_of_le (h b hb)
    simp [hlt]
  · rw [if_neg ha]

theorem sInsert_sign {a : α} {l : List α} (h : KeySorted key l) :
    (sInsert key odd a l).1 = pSign (sCnt key odd a l) := by
  induction l with
  | nil => simp [sInsert, sCnt, pSign]
  | cons b l ih =>
    by_cases hab : natListLe (key a) (key b)
    · have hz : sCnt key odd a (b :: l) = 0 := by
        apply sCnt_eq_zero_of_ge
        intro c hc
        rcases List.mem_cons.mp hc with rfl | hc'
        · exact hab
        · exact natListLe_trans hab ((List.pairwise_cons.mp h).1 c hc')
      rw [hz]
      simp [sInsert, hab, pSign]
    · have hba : natListLt (key b) (key a) = true :=
        natListLe_false_iff.mp (by simpa using hab)
      have hs : (sInsert key odd a (b :: l)).1 =
          (sInsert key odd a l).1 * (if odd a && odd b then -1 else 1) := by
        simp [sInsert, hab]
      rw [hs, ih (List.pairwise_cons.mp h).2, sCnt_cons, hba, Bool.and_true,
        pSign_add]
      by_cases ho : (odd a && odd b) = true
      · rw [if_pos ho, if_pos ho]
        show pSign (sCnt key odd a l) * -1 = pSign 1 * pSign (sCnt key odd a l)
        rw [show pSign 1 = -1 from rfl]
        exact Int.mul_comm _ _
      · rw [if_neg ho, if_neg ho]
        show pSign (sCnt key odd a l) * 1 = pSign 0 * pSign (sCnt key odd a l)
        rw [show pSign 0 = 1 from rfl]
        exact Int.mul_comm _ _

theorem sSort_sign (l : List α) :
    (sSort key odd l).1 = pSign (sInv key odd l) := by
  induction l with
  | nil => simp [sSort, sInv, pSign]
  | cons a l ih =>
    have h1 : (sSort key odd (a :: l)).1 =
        (sSort key odd l).1 * (sInsert key odd a (sSort key odd l).2).1 := rfl
    rw [h1, ih, sInsert_sign key odd (sSort_sorted key odd l),
      sCnt_eq_of_perm key odd (sSort_perm key odd l) a]
    show pSign (sInv key odd l) * pSign (sCnt key odd a l) =
      pSign (sCnt key odd a l + sInv key odd l)
    rw [← pSign_add]
    exact pSign_congr (by omega)

theorem sSort_sign_pm (l : List α) :
    (sSort key odd l).1 = 1 ∨ (sSort key odd l).1 = -1 := by
  rw [sSort_sign]
  exact pSign_pm _

theorem sInv_zero_of_sorted {l : List α} (h : KeySorted key l) :
    sInv key odd l = 0 := by
  induction l with
  | nil => rfl
  | cons a l ih =>
    have h1 : sCnt key odd a l = 0 :=
      sCnt_eq_zero_of_ge key odd (fun b hb => (List.pairwise_cons.mp h).1 b hb)
    show sCnt key odd a l + sInv key odd l = 0
    rw [h1, ih (List.pairwise_cons.mp h).2]

/-- The parity contribution of one unordered pair is the same before and
after an injective odd-preserving relabeling: the pair is discordant between
the two arrangements regardless of how the keys moved. -/
theorem sInv_pair_parity (g : α → α) (hg : Function.Injective g)
    (hodd : ∀ x, odd (g x) = odd x)
    (hkey : ∀ x y : α, key x = key y → x = y) (x y : α) :
    ((if odd y && odd x && natListLt (key x) (key y) then 1 else 0) +
        (if odd (g y) && odd (g x) && natListLt (key (g x)) (key (g y))
          then 1 else 0)) % 2 =
      ((if odd x && odd y && natListLt (key y) (key x) then 1 else 0) +
        (if odd (g x) && odd (g y) && natListLt (key (g y)) (key (g x))
          then 1 else 0)) % 2 := by
  by_cases hx : odd x = true
  · by_cases hy : odd y = true
    · by_cases hxy : x = y
      · subst hxy
        simp [natListLt_irrefl]
      · have hk : key x ≠ key y := fun hc => hxy (hkey x y hc)
        have hgxy : g x ≠ g y := fun hc => hxy (hg hc)
        have hgk : key (g x) ≠ key (g y) := fun hc => hgxy (hkey _ _ hc)
        have hbase : (natListLt (key x) (key y) = true ∧
              natListLt (key y) (key x) = false) ∨
            (natListLt (key y) (key x) = true ∧
              natListLt (key x) (key y) = false) := by
          rcases hlt : natListLt (key x) (key y) with _ | _
          · rcases hlt2 : natListLt (key y) (key x) with _ | _
            · exact absurd (natListLt_connex _ _ hlt hlt2) hk
            · exact Or.inr ⟨rfl, rfl⟩
          · exact Or.inl ⟨rfl, natListLt_asymm hlt⟩
        have hgbase : (natListLt (key (g x)) (key (g y)) = true ∧
              natListLt (key (g y)) (key (g x)) = false) ∨
            (natListLt (key (g y)) (key (g x)) = true ∧
              natListLt (key (g x)) (key (g y)) = false) := by
          rcases hlt : natListLt (key (g x)) (key (g y)) with _ | _
          · rcases hlt2 : natListLt (key (g y)) (key (g x)) with _ | _
            · exact absurd (natListLt_connex _ _ hlt hlt2) hgk
            · exact Or.inr ⟨rfl, rfl⟩
          · exact Or.inl ⟨rfl, natListLt_asymm hlt⟩
        rcases hbase with ⟨h1, h2⟩ | ⟨h1, h2⟩ <;>
          rcases hgbase with ⟨h3, h4⟩ | ⟨h3, h4⟩ <;>
            simp [hx, hy, hodd, h1, h2, h3, h4]
    · simp [hodd, hy]
  · simp [hodd, hx]

/-- Parity invariance: the combined number of odd-pair inversions of a list
and of its injectively relabeled copy has the same parity on every
arrangement of the same multiset. -/
theorem sInv_parity_perm (g : α → α) (hg : Function.Injective g)
    (hodd : ∀ x, odd (g x) = odd x)
    (hkey : ∀ x y : α, key x = key y → x = y)
    {X Y : List α} (h : X.Perm Y) :
    (sInv key odd X + sInv key odd (X.map g)) % 2 =
      (sInv key odd Y + sInv key odd (Y.map g)) % 2 := by
  induction h with
  | nil => rfl
  | cons a h ih =>
    rename_i l₁ l₂
    have e1 : sCnt key odd a l₁ = sCnt key odd a l₂ := sCnt_eq_of_perm key odd h a
    have e2 : sCnt key odd (g a) (l₁.map g) = sCnt key odd (g a) (l₂.map g) :=
      sCnt_eq_of_perm key odd (h.map g) (g a)
    simp only [sInv, List.map_cons]
    rw [e1, e2]
    omega
  | swap x y l =>
    simp only [sInv, List.map_cons]
    rw [sCnt_cons, sCnt_cons, sCnt_cons, sCnt_cons]
    have hp := sInv_pair_parity key odd g hg hodd hkey x y
    omega
  | trans h1 h2 ih1 ih2 => exact ih1.trans ih2

/-- Sign composition: the sign of sorting an injectively relabeled copy of
the already-sorted list, times the sign of the original sort, is the sign of
sorting the relabeled original — the generic form of the §4.1/§4.3 sign
stability. -/
theorem sSort_sign_comp (g : α → α) (hg : Function.Injective g)
    (hodd : ∀ x, odd (g x) = odd x)
    (hkey : ∀ x y : α, key x = key y → x = y) (A : List α) :
    (sSort key odd ((sSort key odd A).2.map g)).1 * (sSort key odd A).1 =
      (sSort key odd (A.map g)).1 := by
  have hzero : sInv key odd (sSort key odd A).2 = 0 :=
    sInv_zero_of_sorted key odd (sSort_sorted key odd A)
  have hpar := sInv_parity_perm key odd g hg hodd hkey (sSort_perm key odd A)
  rw [sSort_sign, sSort_sign, sSort_sign, ← pSign_add]
  apply pSign_congr
  omega

end SignedSort

/-! ## The §4.1 instance: operator strings -/

/-- The fermion test, as the "odd" predicate of the §4.1 sign. -/
def opFerm (o : Operator) : Bool := decide (o.index.field = FieldType.fermion)

theorem swapSign_eq (a b : Operator) :
    swapSign a b = (if opFerm a && opFerm b then -1 else 1) := by
  unfold swapSign opFerm
  by_cases ha : a.index.field = FieldType.fermion <;>
    by_cases hb : b.index.field = FieldType.fermion <;> simp [ha, hb]

theorem insertOpSigned_eq_sInsert (a : Operator) (l : List Operator) :
    insertOpSigned a l = sInsert Operator.key opFerm a l := by
  induction l with
  | nil => rfl
  | cons b l ih =>
    by_cases h : opLe a b
    · have h' : natListLe (Operator.key a) (Operator.key b) = true := h
      simp [insertOpSigned, sInsert, h, h']
    · have h' : natListLe (Operator.key a) (Operator.key b) = false := by
        rcases hc : natListLe (Operator.key a) (Operator.key b) with _ | _
        · rfl
        · exact absurd hc h
      simp [insertOpSigned, sInsert, h, h', ih, swapSign_eq]

theorem sortOpsSigned_eq_sSort (l : List Operator) :
    sortOpsSigned l = sSort Operator.key opFerm l := by
  induction l with
  | nil => rfl
  | cons a l ih => simp [sortOpsSigned, sSort, ih, insertOpSigned_eq_sInsert]

theorem sortOpsSigned_sign_pm (l : List Operator) :
    (sortOpsSigned l).1 = 1 ∨ (sortOpsSigned l).1 = -1 := by
  rw [sortOpsSigned_eq_sSort]
  exact sSort_sign_pm Operator.key opFerm l

/-! ## Pauli exclusion and the out-of-context bosonic contraction (§4.1, §7)

Per §4.1, a product holding two identical fermionic operators is identically
zero (Pauli exclusion; the canonicalization returns 0 and short-circuits),
and a bosonic creation operator standing left of the annihilation operator
with the same Index would require a contraction, which §7 classifies as
*ambiguous-contraction*; following the recommendation of §9 the
canonicalization rejects such input (modelled as `none`). -/

/-- Detects two identical fermionic operators (same Index, same kind) in one
operator string. -/
def hasPauli : List Operator → Bool
  | [] => false
  | a :: l =>
    (decide (a.index.field = FieldType.fermion) && l.any (fun b => decide (b = a)))
      || hasPauli l

/-- Detects a bosonic creation operator standing (anywhere) left of an
annihilation operator carrying the same Index: the only pair whose
canonical-order swap would produce a contraction term (§4.1). -/
def hasBosonCollision : List Operator → Bool
  | [] => false
  | a :: l =>
    (decide (a.index.field = FieldType.boson) &&
      decide (a.kind = OperatorKind.creation) &&
      l.any (fun b =>
        decide (b.kind = OperatorKind.annihilation) && decide (b.index = a.index)))
      || hasBosonCollision l

theorem hasPauli_iff {l : List Operator} :
    hasPauli l = true ↔
      ∃ a : Operator, a.index.field = FieldType.fermion ∧ 2 ≤ l.count a := by
  induction l with
  | nil => simp [hasPauli]
  | cons b l ih =>
    simp only [hasPauli, Bool.or_eq_true, Bool.and_eq_true, decide_eq_true_eq,
      List.any_eq_true, ih]
    constructor
    · rintro (⟨hf, a, ha, rfl⟩ | ⟨a, hf, hc⟩)
      · refine ⟨a, hf, ?_⟩
        rw [List.count_cons_self]
        have : 1 ≤ l.count a := List.count_pos_iff.mpr ha
        omega
      · refine ⟨a, hf, ?_⟩
        rcases eq_or_ne a b with rfl | hne
        · rw [List.count_cons_self]; omega
        · rw [List.count_cons_of_ne hne]; exact hc
    · rintro ⟨a, hf, hc⟩
      rcases eq_or_ne a b with rfl | hne
      · rw [List.count_cons_self] at hc
        exact Or.inl ⟨hf, a, List.count_pos_iff.mp (by omega), rfl⟩
      · rw [List.count_cons_of_ne hne] at hc
        exact Or.inr ⟨a, hf, hc⟩

theorem hasPauli_eq_of_perm {l m : List Operator} (h : l.Perm m) :
    hasPauli l = hasPauli m := by
  rcases hl : hasPauli m with _ | _
  · rcases hl2 : hasPauli l with _ | _
    · rfl
    · obtain ⟨a, hf, hc⟩ := hasPauli_iff.mp hl2
      rw [h.count_eq] at hc
      rw [← hl, hasPauli_iff.mpr ⟨a, hf, hc⟩]
  · obtain ⟨a, hf, hc⟩ := hasPauli_iff.mp hl
    rw [← h.count_eq] at hc
    exact hasPauli_iff.mpr ⟨a, hf, hc⟩

theorem hasBosonCollision_iff {l : List Operator} :
    hasBosonCollision l = true ↔
      ∃ l₁ x l₂, l = l₁ ++ x :: l₂ ∧ x.index.field = FieldType.boson ∧
        x.kind = OperatorKind.creation ∧
        ∃ y ∈ l₂, y.kind = OperatorKind.annihilation ∧ y.index = x.index := by
  induction l with
  | nil => simp [hasBosonCollision]
  | cons b l ih =>
    simp only [hasBosonCollision, Bool.or_eq_true, Bool.and_eq_true,
      decide_eq_true_eq, List.any_eq_true, ih]
    constructor
    · rintro (⟨⟨hb, hk⟩, y, hy, hyk, hyi⟩ | ⟨l₁, x, l₂, rfl, hx⟩)
      · exact ⟨[], b, l, rfl, hb, hk, y, hy, hyk, hyi⟩
      · exact ⟨b :: l₁, x, l₂, rfl, hx⟩
    · rintro ⟨l₁, x, l₂, he, hb, hk, y, hy, hyk, hyi⟩
      cases l₁ with
      | nil =>
        simp only [List.nil_append, List.cons.injEq] at he
        obtain ⟨rfl, rfl⟩ := he
        exact Or.inl ⟨⟨hb, hk⟩, y, hy, hyk, hyi⟩
      | cons c l₁t =>
        simp only [List.cons_append, List.cons.injEq] at he
        obtain ⟨rfl, rfl⟩ := he
        exact Or.inr ⟨l₁t, x, l₂, rfl, hb, hk, y, hy, hyk, hyi⟩

/-- A string sorted in the canonical key order has no out-of-order bosonic
pair: annihilation operators already stand left of creation operators. -/
theorem hasBosonCollision_of_sorted {l : List Operator} (h : l.Sorted OpLeR) :
    hasBosonCollision l = false := by
  rcases hc : hasBosonCollision l with _ | _
  · rfl
  · exfalso
    obtain ⟨l₁, x, l₂, rfl, _, hk, y, hy, hyk, hyi⟩ := hasBosonCollision_iff.mp hc
    have hxy : OpLeR x y := by
      have hs := (List.pairwise_append.mp h).2.1
      exact List.rel_of_sorted_cons hs y hy
    unfold OpLeR opLe at hxy
    rw [Operator.key, Operator.key, hk, hyk, hyi] at hxy
    simp [natListLe, natListLt, OperatorKind.rank, natListLt_irrefl] at hxy

/-! ## Canonical relabeling of indices (§4.3 step 2)

§4.3 relabels the indices of each term to the smallest labeling consistent
with the term's index usage.  Interpretation choices, documented here because
the implementation is not in the sources: (a) only *repeated* (contracted)
indices are relabeled — a free index is an observable name of the term (this
also matches the worked example of §8, where `a†_p a_q` keeps its two free
indices); (b) a relabeling permutes the repeated indices of the term among
themselves within a class of equal (label, field type, space type) — the
ordinal is the only part that changes, consistent with §3's index order
(space, label, ordinal); (c) "smallest" is read with respect to the engine's
total term order (operator-string key, then tensor-factor key) after the
operator string is brought to canonical order by §4.1 and each
symmetric/antisymmetric tensor factor's index slots are brought to their
canonical (sorted) arrangement — the unique representative of the factor's
declared index-permutation symmetry class — with the §4.1 sign and the
parity sign of every antisymmetric slot permutation folded into the
coefficient; (d) when the smallest labeling is reachable with both signs the
term equals its own negation and cancels: its coefficient becomes zero and
the expression-level zero filter removes it. -/

/-- The class of an index for relabeling purposes: everything but the
ordinal. -/
def Index.classKey (i : Index) : Char × FieldType × SpaceType :=
  (i.label, i.field, i.space)

/-- All indices of a tensor factor, upper then lower. -/
def TensorFactor.indices (T : TensorFactor) : List Index := T.upper ++ T.lower

/-- All index occurrences of a term: tensor factors first, then the operator
string. -/
def indicesOfTerm (t : SymbolicTerm) : List Index :=
  (t.tensors.map TensorFactor.indices).flatten ++ t.ops.map Operator.index

/-- The repeated (contracted) indices of a term, each listed once. -/
def repIndices (t : SymbolicTerm) : List Index :=
  ((indicesOfTerm t).filter
    (fun i => decide (2 ≤ (indicesOfTerm t).count i))).dedup

/-- Application of an association list of index replacements; indices not
listed are left unchanged. -/
def assocApply (ρ : List (Index × Index)) (i : Index) : Index :=
  match ρ.find? (fun p => decide (p.1 = i)) with
  | some p => p.2
  | none => i

/-- Renaming of the index of one operator. -/
def mapOp (f : Index → Index) (o : Operator) : Operator := ⟨o.kind, f o.index⟩

/-- Renaming of the indices of one tensor factor. -/
def mapTensor (f : Index → Index) (T : TensorFactor) : TensorFactor :=
  ⟨T.label, T.symmetry, T.upper.map f, T.lower.map f⟩

/-- Signed sort of an index list — the slot arrangement of an antisymmetric
tensor factor, where every adjacent transposition of two slots contributes
−1 (every index counts as odd). -/
def idxSort (l : List Index) : Int × List Index :=
  sSort Index.key (fun _ => true) l

/-- Modelled from the spec (§4.3 step 2): slot canonicalization of one
tensor factor under its declared index-permutation symmetry.  A nonsymmetric
factor admits no slot permutation and is untouched; a symmetric factor's
upper and lower index lists are brought to their unique sorted arrangement
with sign +1; an antisymmetric factor's lists are likewise sorted, recording
the parity sign of the two slot permutations. -/
def slotSortTensor (T : TensorFactor) : Int × TensorFactor :=
  match T.symmetry with
  | SymmetryType.nonsymmetric => (1, T)
  | SymmetryType.symmetric =>
    (1, ⟨T.label, T.symmetry, (idxSort T.upper).2, (idxSort T.lower).2⟩)
  | SymmetryType.antisymmetric =>
    ((idxSort T.upper).1 * (idxSort T.lower).1,
     ⟨T.label, T.symmetry, (idxSort T.upper).2, (idxSort T.lower).2⟩)

/-- Slot canonicalization of a tensor-factor list, with the accumulated
antisymmetric parity sign. -/
def slotSortTensors : List TensorFactor → Int × List TensorFactor
  | [] => (1, [])
  | T :: Ts =>
    let p := slotSortTensor T
    let q := slotSortTensors Ts
    (p.1 * q.1, p.2 :: q.2)

/-- All ways to insert an element into a list (used to enumerate
permutations by structural recursion, so that the enumeration evaluates
inside the kernel). -/
def insertAll (a : Index) : List Index → List (List Index)
  | [] => [[a]]
  | b :: l => (a :: b :: l) :: (insertAll a l).map (fun m => b :: m)

/-- All permutations of a list, by structural recursion. -/
def perms : List Index → List (List Index)
  | [] => [[]]
  | a :: l => ((perms l).map (insertAll a)).flatten

theorem insertAll_sound {a : Index} : ∀ {l m : List Index},
    m ∈ insertAll a l → m.Perm (a :: l) := by
  intro l
  induction l with
  | nil =>
    intro m hm
    simp only [insertAll, List.mem_singleton] at hm
    subst hm
    exact List.Perm.refl _
  | cons b l ih =>
    intro m hm
    simp only [insertAll, List.mem_cons, List.mem_map] at hm
    rcases hm with rfl | ⟨m', hm', rfl⟩
    · exact List.Perm.refl _
    · exact ((ih hm').cons b).trans (List.Perm.swap a b l)

theorem perms_sound : ∀ {l m : List Index}, m ∈ perms l → m.Perm l := by
  intro l
  induction l with
  | nil =>
    intro m hm
    simp only [perms, List.mem_singleton] at hm
    subst hm
    exact List.Perm.refl _
  | cons a l ih =>
    intro m hm
    simp only [perms, List.mem_flatten, List.mem_map] at hm
    obtain ⟨_, ⟨m', hm', rfl⟩, hmem⟩ := hm
    exact (insertAll_sound hmem).trans ((ih hm').cons a)

theorem insertAll_middle (a : Index) : ∀ (m₁ m₂ : List Index),
    (m₁ ++ a :: m₂) ∈ insertAll a (m₁ ++ m₂) := by
  intro m₁
  induction m₁ with
  | nil => intro m₂; cases m₂ <;> simp [insertAll]
  | cons b m₁ ih =>
    intro m₂
    simp only [List.cons_append, insertAll, List.mem_cons, List.mem_map]
    exact Or.inr ⟨m₁ ++ a :: m₂, ih m₂, rfl⟩

theorem perms_complete : ∀ {l m : List Index}, m.Perm l → m ∈ perms l := by
  intro l
  induction l with
  | nil =>
    intro m hm
    rw [hm.eq_nil]
    simp [perms]
  | cons a l ih =>
    intro m hm
    have ha : a ∈ m := hm.mem_iff.mpr (by simp)
    obtain ⟨m₁, m₂, rfl⟩ := List.append_of_mem ha
    have h1 : (a :: (m₁ ++ m₂)).Perm (a :: l) :=
      List.perm_middle.symm.trans hm
    have h2 : (m₁ ++ m₂).Perm l := h1.cons_inv
    simp only [perms, List.mem_flatten, List.mem_map]
    exact ⟨insertAll a (m₁ ++ m₂), ⟨m₁ ++ m₂, ih h2, rfl⟩,
      insertAll_middle a m₁ m₂⟩

theorem perms_self (l : List Index) : l ∈ perms l :=
  perms_complete (List.Perm.refl l)

/-- Modelled from the spec (§4.3 step 2): all admissible relabelings of a
term, as association lists pairing each repeated index with its replacement —
the permutations of the repeated indices that preserve each index's class. -/
def relabelings (t : SymbolicTerm) : List (List (Index × Index)) :=
  let D := repIndices t
  ((perms D).filter
    (fun l => decide (l.map Index.classKey = D.map Index.classKey))).map
    (fun l => D.zip l)

/-- One candidate canonical form of a term: rename the indices, bring the
operator string to canonical order (§4.1), bring each symmetric and
antisymmetric tensor factor's slots to their canonical arrangement
(§4.3 step 2), and record the accumulated sign — the §4.1 transposition sign
times the parity sign of every antisymmetric slot permutation. -/
def variantOf (t : SymbolicTerm) (ρ : List (Index × Index)) :
    Int × List TensorFactor × List Operator :=
  let f := assocApply ρ
  let s := sortOpsSigned (t.ops.map (mapOp f))
  let q := slotSortTensors (t.tensors.map (mapTensor f))
  (s.1 * q.1, q.2, s.2)

/-- The key by which candidate canonical forms are compared: operator-string
key first, tensor-factor key second. -/
def variantKey (v : Int × List TensorFactor × List Operator) : List Nat :=
  [opsEnc v.2.2, tensorsEnc v.2.1]

/-- Selection of the smallest candidate (first winner on ties, though the
key admits no ties between distinct candidates). -/
def pickMinVar (v : Int × List TensorFactor × List Operator) :
    List (Int × List TensorFactor × List Operator) →
      Int × List TensorFactor × List Operator
  | [] => v
  | w :: rest =>
    if natListLt (variantKey w) (variantKey v) then pickMinVar w rest
    else pickMinVar v rest

/-- Modelled from the spec (§4.3 steps 1–3): the canonical signature of a
term — the smallest relabeled form, its operator string §4.1-sorted and its
symmetric/antisymmetric tensor slots in canonical arrangement — and the sign
to fold into the coefficient.  When the smallest form is reached with both
signs the term equals its own negation and cancels: the sign is 0; otherwise
it is the unique sign with which the smallest form is reached. -/
def canonCore (t : SymbolicTerm) : Int × List TensorFactor × List Operator :=
  match (relabelings t).map (variantOf t) with
  | [] => (1, t.tensors, t.ops)
  | v :: vs =>
    let m := pickMinVar v vs
    let hasP := (v :: vs).any (fun w => decide (w.2 = m.2) && decide (w.1 = 1))
    let hasM := (v :: vs).any (fun w => decide (w.2 = m.2) && decide (w.1 = -1))
    (if hasP && hasM then 0 else if hasP then 1 else -1, m.2.1, m.2.2)

/-- Sign application that avoids rational multiplication: the sign of §4.1 is
±1. -/
def mulSign (s : Int) (c : ℚ) : ℚ := if s = 1 then c else -c

/-- Sign application for the three-valued §4.3 sign: ±1 applies the sign, 0
cancels the coefficient (a self-negating antisymmetric term). -/
def mulSignZ (s : Int) (c : ℚ) : ℚ :=
  if s = 1 then c else if s = -1 then -c else 0

/-- Modelled from the spec (§4.3 steps 1–3 and §4.1): canonicalization of one
term.  Pauli exclusion zeroes the coefficient (the term is dropped by the
expression-level zero filter), as does a self-negating term whose smallest
labeling is reached with both signs; an out-of-context bosonic contraction is
rejected (`none`, §7 *ambiguous-contraction*, policy of §9); otherwise the
term is replaced by its smallest relabeled form — operator string
§4.1-sorted, symmetry slots canonical — with the accumulated sign folded
into the coefficient. -/
def canonTerm (t : SymbolicTerm) : Option SymbolicTerm :=
  if hasBosonCollision t.ops then none
  else
    let c := canonCore t
    some ⟨if hasPauli t.ops then 0 else mulSignZ c.1 t.coeff, c.2.1, c.2.2⟩

/-! ## Properties of the candidate selection -/

theorem pickMinVar_mem (v : Int × List TensorFactor × List Operator)
    (l : List (Int × List TensorFactor × List Operator)) :
    pickMinVar v l ∈ v :: l := by
  induction l generalizing v with
  | nil => simp [pickMinVar]
  | cons w rest ih =>
    simp only [pickMinVar]
    by_cases h : natListLt (variantKey w) (variantKey v) = true
    · simp only [h, if_true]
      have := ih w
      simp only [List.mem_cons] at this ⊢
      tauto
    · simp only [h, if_false]
      have := ih v
      simp only [List.mem_cons] at this ⊢
      tauto

theorem pickMinVar_min (v : Int × List TensorFactor × List Operator)
    (l : List (Int × List TensorFactor × List Operator)) :
    ∀ w ∈ v :: l,
      natListLt (variantKey w) (variantKey (pickMinVar v l)) = false := by
  induction l generalizing v with
  | nil =>
    intro w hw
    rcases List.mem_cons.mp hw with rfl | h
    · exact natListLt_irrefl _
    · simp at h
  | cons w rest ih =>
    intro u hu
    rcases hc : natListLt (variantKey w) (variantKey v) with _ | _
    · -- keep v
      have hg : pickMinVar v (w :: rest) = pickMinVar v rest := by
        simp [pickMinVar, hc]
      rw [hg]
      rcases List.mem_cons.mp hu with rfl | hu'
      · exact ih u u (by simp)
      · rcases List.mem_cons.mp hu' with rfl | hu''
        · -- u = w, not below v
          have hv := ih v v (by simp)
          rcases hv2 : natListLt (variantKey u) (variantKey (pickMinVar v rest)) with _ | _
          · rfl
          · rcases hvw : natListLt (variantKey v) (variantKey u) with _ | _
            · have heq := natListLt_connex _ _ hvw hc
              rw [← heq] at hv2
              rw [hv] at hv2
              exact hv2.symm
            · exact absurd (natListLt_trans hvw hv2) (by simp [hv])
        · exact ih v u (by simp [hu''])
    · -- move to w
      have hg : pickMinVar v (w :: rest) = pickMinVar w rest := by
        simp [pickMinVar, hc]
      rw [hg]
      rcases List.mem_cons.mp hu with rfl | hu'
      · -- u = v, strictly above w
        have hw := ih w w (by simp)
        rcases hv2 : natListLt (variantKey u) (variantKey (pickMinVar w rest)) with _ | _
        · rfl
        · exact absurd (natListLt_trans hc hv2) (by simp [hw])
      · rcases List.mem_cons.mp hu' with rfl | hu''
        · exact ih u u (by simp)
        · exact ih w u (by simp [hu''])

/-! ## Properties of association-list application -/

theorem assocApply_cons (d e : Index) (ρ : List (Index × Index)) (i : Index) :
    assocApply ((d, e) :: ρ) i = if d = i then e else assocApply ρ i := by
  by_cases h : d = i
  · simp [assocApply, List.find?, h]
  · simp only [assocApply, List.find?, h]
    simp [h]

theorem assocApply_zip_self (D : List Index) (i : Index) :
    assocApply (D.zip D) i = i := by
  induction D with
  | nil => rfl
  | cons d Dt ih =>
    rw [List.zip_cons_cons, assocApply_cons]
    by_cases h : d = i
    · simp [h]
    · simp [h, ih]

theorem assocApply_zip_not_mem {D : List Index} (l : List Index) {i : Index}
    (hi : i ∉ D) : assocApply (D.zip l) i = i := by
  induction D generalizing l with
  | nil => rfl
  | cons d Dt ih =>
    cases l with
    | nil => rfl
    | cons e lt =>
      rw [List.zip_cons_cons, assocApply_cons]
      have hd : d ≠ i := fun h => hi (h ▸ List.mem_cons_self d Dt)
      simp only [hd, if_false]
      exact ih lt (fun h => hi (List.mem_cons_of_mem d h))

theorem assocApply_zip_eq_map {D l : List Index} (hD : D.Nodup)
    (hlen : D.length = l.length) : D.map (assocApply (D.zip l)) = l := by
  induction D generalizing l with
  | nil =>
    cases l with
    | nil => rfl
    | cons e lt => simp at hlen
  | cons d Dt ih =>
    cases l with
    | nil => simp at hlen
    | cons e lt =>
      rw [List.zip_cons_cons, List.map_cons]
      have h1 : assocApply ((d, e) :: Dt.zip lt) d = e := by
        rw [assocApply_cons, if_pos rfl]
      rw [h1]
      have h2 : Dt.map (assocApply ((d, e) :: Dt.zip lt)) =
          Dt.map (assocApply (Dt.zip lt)) := by
        apply List.map_congr_left
        intro x hx
        rw [assocApply_cons]
        have : d ≠ x := fun h => ((List.nodup_cons.mp hD).1 (h ▸ hx))
        simp [this]
      rw [h2, ih (List.nodup_cons.mp hD).2 (by simpa using hlen)]

/-! ## Properties of the admissible relabelings -/

theorem relabelings_spec {t : SymbolicTerm} {ρ : List (Index × Index)}
    (h : ρ ∈ relabelings t) :
    ∃ l : List Index, l.Perm (repIndices t) ∧
      l.map Index.classKey = (repIndices t).map Index.classKey ∧
      ρ = (repIndices t).zip l := by
  simp only [relabelings, List.mem_map, List.mem_filter, decide_eq_true_eq] at h
  obtain ⟨l, ⟨hperm, hck⟩, rfl⟩ := h
  exact ⟨l, perms_sound hperm, hck, rfl⟩

theorem repIndices_nodup (t : SymbolicTerm) : (repIndices t).Nodup :=
  List.nodup_dedup _

theorem zip_self_mem_relabelings (t : SymbolicTerm) :
    (repIndices t).zip (repIndices t) ∈ relabelings t := by
  simp only [relabelings, List.mem_map, List.mem_filter, decide_eq_true_eq]
  exact ⟨repIndices t, ⟨perms_self _, rfl⟩, rfl⟩

/-- The bundle of facts about the function induced by an admissible
relabeling: it is injective on all indices, acts only on the repeated
indices, maps them among themselves, and preserves every index's class. -/
theorem relabeling_props {t : SymbolicTerm} {ρ : List (Index × Index)}
    (h : ρ ∈ relabelings t) :
    Function.Injective (assocApply ρ) ∧
      (∀ i, i ∉ repIndices t → assocApply ρ i = i) ∧
      (∀ i ∈ repIndices t, assocApply ρ i ∈ repIndices t) ∧
      (∀ i, (assocApply ρ i).classKey = i.classKey) ∧
      ((repIndices t).map (assocApply ρ)).Perm (repIndices t) := by
  obtain ⟨l, hperm, hck, rfl⟩ := relabelings_spec h
  set D := repIndices t with hD
  have hnD : D.Nodup := repIndices_nodup t
  have hnl : l.Nodup := hperm.nodup_iff.mpr hnD
  have hlen : D.length = l.length := hperm.length_eq.symm
  have hmap : D.map (assocApply (D.zip l)) = l := assocApply_zip_eq_map hnD hlen
  have hid : ∀ i, i ∉ D → assocApply (D.zip l) i = i :=
    fun i hi => assocApply_zip_not_mem l hi
  have hmem : ∀ i ∈ D, assocApply (D.zip l) i ∈ D := by
    intro i hi
    have h1 := List.mem_map_of_mem (assocApply (D.zip l)) hi
    rw [hmap] at h1
    exact hperm.mem_iff.mp h1
  have hckf : ∀ i, (assocApply (D.zip l) i).classKey = i.classKey := by
    intro i
    by_cases hi : i ∈ D
    · have h1 : D.map (Index.classKey ∘ assocApply (D.zip l)) =
          D.map Index.classKey := by
        rw [← List.map_map, hmap, hck]
      exact List.map_eq_map_iff.mp h1 i hi
    · rw [hid i hi]
  refine ⟨?_, hid, hmem, hckf, by rw [hmap]; exact hperm⟩
  -- injectivity
  have hinjD : ∀ x ∈ D, ∀ y ∈ D,
      assocApply (D.zip l) x = assocApply (D.zip l) y → x = y := by
    have h2 : (D.map (assocApply (D.zip l))).Nodup := by
      rw [hmap]
      exact hnl
    exact (List.nodup_map_iff_inj_on hnD).mp h2
  intro x y hxy
  by_cases hx : x ∈ D <;> by_cases hy : y ∈ D
  · exact hinjD x hx y hy hxy
  · exfalso
    rw [hid y hy] at hxy
    exact hy (hxy ▸ hmem x hx)
  · exfalso
    rw [hid x hx] at hxy
    exact hx (hxy ▸ hmem y hy)
  · rw [hid x hx, hid y hy] at hxy
    exact hxy

/-! ## The canonical form is stable: preparatory lemmas -/

theorem mapOp_comp (f g : Index → Index) :
    mapOp (f ∘ g) = mapOp f ∘ mapOp g := by
  funext o
  rfl

theorem mapTensor_comp (f g : Index → Index) :
    mapTensor (f ∘ g) = mapTensor f ∘ mapTensor g := by
  funext T
  simp [mapTensor, Function.comp_def]

theorem mapTensor_indices (f : Index → Index) (T : TensorFactor) :
    (mapTensor f T).indices = T.indices.map f := by
  simp [mapTensor, TensorFactor.indices]

theorem mapOp_index (f : Index → Index) (o : Operator) :
    (mapOp f o).index = f o.index := rfl

theorem mapOp_injective {f : Index → Index} (hf : Function.Injective f) :
    Function.Injective (mapOp f) := by
  intro o1 o2 h
  cases o1; cases o2
  simp only [mapOp, Operator.mk.injEq] at h ⊢
  exact ⟨h.1, hf h.2⟩

/-- §4.1-sign composition for operator strings: sorting an injectively
renamed copy of the already-sorted string, times the original sort sign,
gives the sign of sorting the renamed original. -/
theorem sortOpsSigned_sign_comp {g : Index → Index} (hg : Function.Injective g)
    (hfield : ∀ i, (g i).field = i.field) (A : List Operator) :
    (sortOpsSigned ((sortOpsSigned A).2.map (mapOp g))).1 * (sortOpsSigned A).1 =
      (sortOpsSigned (A.map (mapOp g))).1 := by
  simp only [sortOpsSigned_eq_sSort]
  exact sSort_sign_comp Operator.key opFerm (mapOp g) (mapOp_injective hg)
    (fun o => by simp [opFerm, mapOp, hfield]) (fun x y h => opKey_inj h) A

/-! ## Properties of the slot canonicalization (§4.3 step 2) -/

theorem idxSort_perm (l : List Index) : (idxSort l).2.Perm l :=
  sSort_perm Index.key (fun _ => true) l

theorem idxSort_sorted (l : List Index) : KeySorted Index.key (idxSort l).2 :=
  sSort_sorted Index.key (fun _ => true) l

theorem idxSort_of_sorted {l : List Index} (h : KeySorted Index.key l) :
    idxSort l = (1, l) :=
  sSort_of_sorted Index.key (fun _ => true) h

theorem idxSort_snd_eq_of_perm {l m : List Index} (h : l.Perm m) :
    (idxSort l).2 = (idxSort m).2 :=
  sSort_snd_eq_of_perm Index.key (fun _ => true)
    (fun x y hxy => indexKey_inj hxy) h

theorem idxSort_sign_comp (g : Index → Index) (hg : Function.Injective g)
    (l : List Index) :
    (idxSort ((idxSort l).2.map g)).1 * (idxSort l).1 = (idxSort (l.map g)).1 :=
  sSort_sign_comp Index.key (fun _ => true) g hg (fun _ => rfl)
    (fun x y h => indexKey_inj h) l

theorem idxSort_sign_pm (l : List Index) :
    (idxSort l).1 = 1 ∨ (idxSort l).1 = -1 :=
  sSort_sign_pm Index.key (fun _ => true) l

theorem idxSort_map_comp (f g : Index → Index) (l : List Index) :
    (idxSort ((idxSort (l.map f)).2.map g)).2 = (idxSort (l.map (g ∘ f))).2 := by
  apply idxSort_snd_eq_of_perm
  have h1 := (idxSort_perm (l.map f)).map g
  rw [List.map_map] at h1
  exact h1

theorem int_mul_pm {a b : Int} (ha : a = 1 ∨ a = -1) (hb : b = 1 ∨ b = -1) :
    a * b = 1 ∨ a * b = -1 := by
  rcases ha with rfl | rfl <;> rcases hb with rfl | rfl <;> simp

/-- Re-canonicalizing a slot-canonical factor is the identity with sign +1. -/
theorem slotSortTensor_stable (T : TensorFactor) :
    slotSortTensor (slotSortTensor T).2 = (1, (slotSortTensor T).2) := by
  cases T with
  | mk lab sym up lo =>
    cases sym
    · rfl
    · simp [slotSortTensor, idxSort_of_sorted (idxSort_sorted up),
        idxSort_of_sorted (idxSort_sorted lo)]
    · simp [slotSortTensor, idxSort_of_sorted (idxSort_sorted up),
        idxSort_of_sorted (idxSort_sorted lo)]

theorem slotSortTensors_cons (T : TensorFactor) (Ts : List TensorFactor) :
    slotSortTensors (T :: Ts) =
      ((slotSortTensor T).1 * (slotSortTensors Ts).1,
       (slotSortTensor T).2 :: (slotSortTensors Ts).2) := rfl

theorem slotSortTensors_stable (Ts : List TensorFactor) :
    slotSortTensors (slotSortTensors Ts).2 = (1, (slotSortTensors Ts).2) := by
  induction Ts with
  | nil => rfl
  | cons T Ts ih =>
    rw [slotSortTensors_cons, slotSortTensors_cons, slotSortTensor_stable, ih]
    simp

theorem slotSortTensor_sign_pm (T : TensorFactor) :
    (slotSortTensor T).1 = 1 ∨ (slotSortTensor T).1 = -1 := by
  cases T with
  | mk lab sym up lo =>
    cases sym
    · exact Or.inl rfl
    · exact Or.inl rfl
    · exact int_mul_pm (idxSort_sign_pm up) (idxSort_sign_pm lo)

theorem slotSortTensors_sign_pm (Ts : List TensorFactor) :
    (slotSortTensors Ts).1 = 1 ∨ (slotSortTensors Ts).1 = -1 := by
  induction Ts with
  | nil => exact Or.inl rfl
  | cons T Ts ih =>
    rw [slotSortTensors_cons]
    exact int_mul_pm (slotSortTensor_sign_pm T) ih

/-- Slot canonicalization commutes with an index renaming up to
re-canonicalization: the canonical slots of a renamed slot-canonical factor
are the canonical slots of the renamed original. -/
theorem slotSortTensor_map_snd (f g : Index → Index) (T : TensorFactor) :
    (slotSortTensor (mapTensor g (slotSortTensor (mapTensor f T)).2)).2 =
      (slotSortTensor (mapTensor (g ∘ f) T)).2 := by
  cases T with
  | mk lab sym up lo =>
    cases sym
    · simp [slotSortTensor, mapTensor, List.map_map]
    · simp [slotSortTensor, mapTensor, idxSort_map_comp]
    · simp [slotSortTensor, mapTensor, idxSort_map_comp]

/-- Slot-sign composition for one factor: the parity collected when
re-canonicalizing the renamed slot-canonical factor, times the original
parity, is the parity of canonicalizing the renamed original. -/
theorem slotSortTensor_map_fst (f g : Index → Index)
    (hg : Function.Injective g) (T : TensorFactor) :
    (slotSortTensor (mapTensor g (slotSortTensor (mapTensor f T)).2)).1 *
        (slotSortTensor (mapTensor f T)).1 =
      (slotSortTensor (mapTensor (g ∘ f) T)).1 := by
  cases T with
  | mk lab sym up lo =>
    cases sym
    · simp [slotSortTensor, mapTensor]
    · simp [slotSortTensor, mapTensor]
    · simp only [slotSortTensor, mapTensor]
      rw [mul_mul_mul_comm, idxSort_sign_comp g hg (up.map f),
        idxSort_sign_comp g hg (lo.map f), List.map_map, List.map_map]

/-- Slot composition over a tensor-factor list: both the term part and the
collected parity compose under an injective renaming. -/
theorem slotSortTensors_map_comp (f g : Index → Index)
    (hg : Function.Injective g) (Ts : List TensorFactor) :
    (slotSortTensors ((slotSortTensors (Ts.map (mapTensor f))).2.map
          (mapTensor g))).1 *
        (slotSortTensors (Ts.map (mapTensor f))).1 =
      (slotSortTensors (Ts.map (mapTensor (g ∘ f)))).1 ∧
    (slotSortTensors ((slotSortTensors (Ts.map (mapTensor f))).2.map
          (mapTensor g))).2 =
      (slotSortTensors (Ts.map (mapTensor (g ∘ f)))).2 := by
  induction Ts with
  | nil => exact ⟨by simp [slotSortTensors], rfl⟩
  | cons T Ts ih =>
    simp only [List.map_cons, slotSortTensors_cons]
    constructor
    · rw [mul_mul_mul_comm, slotSortTensor_map_fst f g hg T, ih.1]
    · rw [slotSortTensor_map_snd f g T, ih.2]

theorem slotSortTensor_indices (T : TensorFactor) :
    (slotSortTensor T).2.indices.Perm T.indices := by
  cases T with
  | mk lab sym up lo =>
    cases sym
    · exact List.Perm.refl _
    · exact List.Perm.append (idxSort_perm up) (idxSort_perm lo)
    · exact List.Perm.append (idxSort_perm up) (idxSort_perm lo)

theorem slotSortTensors_indices (Ts : List TensorFactor) :
    (((slotSortTensors Ts).2.map TensorFactor.indices).flatten).Perm
      ((Ts.map TensorFactor.indices).flatten) := by
  induction Ts with
  | nil => rfl
  | cons T Ts ih =>
    rw [slotSortTensors_cons]
    simp only [List.map_cons, List.flatten_cons]
    exact List.Perm.append (slotSortTensor_indices T) ih

/-- The index occurrences of a relabeled-and-sorted term are a permutation of
the relabeled index occurrences of the original term. -/
theorem indicesOfTerm_variant (t : SymbolicTerm) (f : Index → Index) (c : ℚ) :
    (indicesOfTerm ⟨c, (slotSortTensors (t.tensors.map (mapTensor f))).2,
        (sortOpsSigned (t.ops.map (mapOp f))).2⟩).Perm
      ((indicesOfTerm t).map f) := by
  simp only [indicesOfTerm, List.map_append]
  apply List.Perm.append
  · have h0 := slotSortTensors_indices (t.tensors.map (mapTensor f))
    have h1 : ((t.tensors.map (mapTensor f)).map TensorFactor.indices).flatten =
        ((t.tensors.map TensorFactor.indices).flatten).map f := by
      rw [List.map_map, List.map_flatten, List.map_map]
      congr 1
      apply List.map_congr_left
      intro T _
      exact mapTensor_indices f T
    rw [h1] at h0
    exact h0
  · have h1 : ((sortOpsSigned (t.ops.map (mapOp f))).2.map Operator.index).Perm
        ((t.ops.map (mapOp f)).map Operator.index) :=
      (sortOpsSigned_perm _).map _
    have h2 : (t.ops.map (mapOp f)).map Operator.index =
        (t.ops.map Operator.index).map f := by
      simp [List.map_map, Function.comp_def, mapOp_index]
    rw [h2] at h1
    exact h1

/-- `dedup` commutes with mapping by an injective function. -/
theorem dedup_map_of_injective {f : Index → Index}
    (hf : Function.Injective f) (l : List Index) :
    (l.map f).dedup = l.dedup.map f := by
  induction l with
  | nil => rfl
  | cons a l ih =>
    rw [List.map_cons]
    by_cases h : a ∈ l
    · rw [List.dedup_cons_of_mem h, List.dedup_cons_of_mem (List.mem_map_of_mem f h), ih]
    · rw [List.dedup_cons_of_not_mem h, List.dedup_cons_of_not_mem, ih, List.map_cons]
      intro hmem
      obtain ⟨b, hb, hba⟩ := List.mem_map.mp hmem
      exact h (hf hba ▸ hb)

/-- The repeated indices of a relabeled-and-sorted term are a permutation of
the relabeled repeated indices of the original term. -/
theorem repIndices_variant (t : SymbolicTerm) (f : Index → Index)
    (hf : Function.Injective f) (c : ℚ) :
    (repIndices ⟨c, (slotSortTensors (t.tensors.map (mapTensor f))).2,
        (sortOpsSigned (t.ops.map (mapOp f))).2⟩).Perm
      ((repIndices t).map f) := by
  set t' : SymbolicTerm := ⟨c, (slotSortTensors (t.tensors.map (mapTensor f))).2,
    (sortOpsSigned (t.ops.map (mapOp f))).2⟩ with ht'
  have hI : (indicesOfTerm t').Perm ((indicesOfTerm t).map f) :=
    indicesOfTerm_variant t f c
  have hcount : ∀ i, (indicesOfTerm t').count i =
      ((indicesOfTerm t).map f).count i := fun i => hI.count_eq i
  unfold repIndices
  have h2 : ((indicesOfTerm t).map f).filter
        (fun i => decide (2 ≤ (indicesOfTerm t').count i)) =
      ((indicesOfTerm t).filter
        (fun i => decide (2 ≤ (indicesOfTerm t).count i))).map f := by
    rw [List.filter_map]
    congr 1
    apply List.filter_congr
    intro i _
    simp only [Function.comp_apply, hcount, decide_eq_decide]
    rw [List.count_map_of_injective _ f hf]
  have h1 : ((indicesOfTerm t').filter
        (fun i => decide (2 ≤ (indicesOfTerm t').count i))).Perm
      (((indicesOfTerm t).filter
        (fun i => decide (2 ≤ (indicesOfTerm t).count i))).map f) := by
    rw [← h2]
    exact hI.filter _
  have h3 := h1.dedup
  rw [dedup_map_of_injective hf] at h3
  exact h3

theorem variantOf_tensors (t : SymbolicTerm) (ρ : List (Index × Index)) :
    (variantOf t ρ).2.1 =
      (slotSortTensors (t.tensors.map (mapTensor (assocApply ρ)))).2 := rfl

theorem variantOf_ops (t : SymbolicTerm) (ρ : List (Index × Index)) :
    (variantOf t ρ).2.2 = (sortOpsSigned (t.ops.map (mapOp (assocApply ρ)))).2 := rfl

theorem variantOf_sign (t : SymbolicTerm) (ρ : List (Index × Index)) :
    (variantOf t ρ).1 =
      (sortOpsSigned (t.ops.map (mapOp (assocApply ρ)))).1 *
        (slotSortTensors (t.tensors.map (mapTensor (assocApply ρ)))).1 := rfl

theorem variantOf_sign_pm (t : SymbolicTerm) (ρ : List (Index × Index)) :
    (variantOf t ρ).1 = 1 ∨ (variantOf t ρ).1 = -1 := by
  rw [variantOf_sign]
  exact int_mul_pm (sortOpsSigned_sign_pm _) (slotSortTensors_sign_pm _)

/-- Composition closure: a relabeling of a canonical candidate is (as a
function on indices) again a relabeling of the original term. -/
theorem relabeling_comp {t : SymbolicTerm} {ρ τ : List (Index × Index)}
    (hρ : ρ ∈ relabelings t) {c : ℚ}
    (hτ : τ ∈ relabelings ⟨c, (variantOf t ρ).2.1, (variantOf t ρ).2.2⟩) :
    ∃ γ ∈ relabelings t, assocApply γ = assocApply τ ∘ assocApply ρ := by
  obtain ⟨hinjρ, hidρ, hmemρ, hckρ, hpermρ⟩ := relabeling_props hρ
  obtain ⟨hinjτ, hidτ, hmemτ, hckτ, hpermτ⟩ := relabeling_props hτ
  have hD' : (repIndices ⟨c, (variantOf t ρ).2.1, (variantOf t ρ).2.2⟩).Perm
      ((repIndices t).map (assocApply ρ)) :=
    repIndices_variant t (assocApply ρ) hinjρ c
  have hsubD' : ∀ i ∈ repIndices ⟨c, (variantOf t ρ).2.1, (variantOf t ρ).2.2⟩,
      i ∈ repIndices t := by
    intro i hi
    obtain ⟨d, hd, rfl⟩ := List.mem_map.mp (hD'.mem_iff.mp hi)
    exact hmemρ d hd
  refine ⟨(repIndices t).zip ((repIndices t).map (assocApply τ ∘ assocApply ρ)),
    ?_, ?_⟩
  · simp only [relabelings, List.mem_map, List.mem_filter, decide_eq_true_eq]
    refine ⟨(repIndices t).map (assocApply τ ∘ assocApply ρ), ⟨?_, ?_⟩, rfl⟩
    · apply perms_complete
      have h1 : ((repIndices t).map (assocApply ρ)).Perm
          (repIndices ⟨c, (variantOf t ρ).2.1, (variantOf t ρ).2.2⟩) := hD'.symm
      have h2 := h1.map (assocApply τ)
      rw [← List.map_map]
      exact ((h2.trans hpermτ).trans hD').trans hpermρ
    · rw [List.map_map]
      apply List.map_congr_left
      intro i _
      rw [Function.comp_apply, Function.comp_apply, hckτ, hckρ]
  · funext i
    by_cases hi : i ∈ repIndices t
    · have hmapeq : (repIndices t).map
          (assocApply ((repIndices t).zip
            ((repIndices t).map (assocApply τ ∘ assocApply ρ)))) =
          (repIndices t).map (assocApply τ ∘ assocApply ρ) :=
        assocApply_zip_eq_map (repIndices_nodup t) (by simp)
      exact List.map_eq_map_iff.mp hmapeq i hi
    · have h1 : assocApply ((repIndices t).zip
          ((repIndices t).map (assocApply τ ∘ assocApply ρ))) i = i :=
        assocApply_zip_not_mem _ hi
      have h2 : assocApply ρ i = i := hidρ i hi
      have h3 : assocApply τ i = i := hidτ i (fun hc => hi (hsubD' i hc))
      rw [h1, Function.comp_apply, h2, h3]

theorem mapOp_id : mapOp id = id := by
  funext o
  cases o
  rfl

theorem mapTensor_id : mapTensor id = id := by
  funext T
  cases T
  simp [mapTensor]

/-- The identity relabeling of a term with a §4.1-sorted operator string and
slot-canonical tensor factors reproduces the term itself with sign +1. -/
theorem variantOf_zip_self_of_canonical {u : SymbolicTerm}
    (h : u.ops.Sorted OpLeR)
    (ht : slotSortTensors u.tensors = (1, u.tensors)) :
    variantOf u ((repIndices u).zip (repIndices u)) = (1, u.tensors, u.ops) := by
  have hf : assocApply ((repIndices u).zip (repIndices u)) = id :=
    funext (assocApply_zip_self _)
  unfold variantOf
  rw [hf]
  simp only [mapOp_id, mapTensor_id, List.map_id]
  rw [sortOpsSigned_of_sorted h, ht]
  rfl

theorem variantKey_expand (w : Int × List TensorFactor × List Operator) :
    variantKey w = [opsEnc w.2.2, tensorsEnc w.2.1] := rfl

theorem variantKey_inj {w w' : Int × List TensorFactor × List Operator}
    (h : variantKey w = variantKey w') : w.2 = w'.2 := by
  simp only [variantKey_expand, List.cons.injEq, and_true] at h
  have h1 := opsEnc_inj h.1
  have h2 := tensorsEnc_inj h.2
  exact Prod.ext h2 h1

theorem relabelings_map_ne_nil (t : SymbolicTerm) :
    (relabelings t).map (variantOf t) ≠ [] := by
  intro h
  rw [List.map_eq_nil_iff] at h
  have := zip_self_mem_relabelings t
  rw [h] at this
  exact absurd this (List.not_mem_nil _)

theorem canonCore_eq {t : SymbolicTerm}
    {v : Int × List TensorFactor × List Operator}
    {vs : List (Int × List TensorFactor × List Operator)}
    (h : (relabelings t).map (variantOf t) = v :: vs) :
    canonCore t =
      (if (v :: vs).any
            (fun w => decide (w.2 = (pickMinVar v vs).2) && decide (w.1 = 1)) &&
          (v :: vs).any
            (fun w => decide (w.2 = (pickMinVar v vs).2) && decide (w.1 = -1))
        then (0 : Int)
        else if (v :: vs).any
            (fun w => decide (w.2 = (pickMinVar v vs).2) && decide (w.1 = 1))
          then 1 else -1,
       (pickMinVar v vs).2.1, (pickMinVar v vs).2.2) := by
  unfold canonCore
  rw [h]

theorem classKey_field {i j : Index} (h : i.classKey = j.classKey) :
    i.field = j.field := by
  simp only [Index.classKey, Prod.mk.injEq] at h
  exact h.2.1

/-- Stability of the canonical signature — the sign-bearing representative
stability of §4.3 step 2: re-canonicalizing the signature produced by
`canonCore` reproduces it, and when the first pass did not cancel the term
(sign ≠ 0) the second pass reports sign +1: every second-pass relabeling
composes with the first-pass minimizer into a first-pass relabeling with the
product of the §4.1 and antisymmetric-parity signs, so a second-pass sign −1
at the minimum would force the first pass to have seen its minimum with both
signs and to have cancelled the term. -/
theorem canonCore_stable (t : SymbolicTerm) (c : ℚ) :
    (canonCore ⟨c, (canonCore t).2.1, (canonCore t).2.2⟩).2 =
        ((canonCore t).2.1, (canonCore t).2.2) ∧
      ((canonCore t).1 ≠ 0 →
        canonCore ⟨c, (canonCore t).2.1, (canonCore t).2.2⟩ =
          (1, (canonCore t).2.1, (canonCore t).2.2)) := by
  -- the first pass
  rcases hmap : (relabelings t).map (variantOf t) with _ | ⟨v, vs⟩
  · exact absurd hmap (relabelings_map_ne_nil t)
  have hcc := canonCore_eq hmap
  set m := pickMinVar v vs with hm
  have hmmem : m ∈ v :: vs := pickMinVar_mem v vs
  rw [← hmap] at hmmem
  obtain ⟨ρ, hρ, hρm⟩ := List.mem_map.mp hmmem
  have h21 : (canonCore t).2.1 = m.2.1 := by rw [hcc]
  have h22 : (canonCore t).2.2 = m.2.2 := by rw [hcc]
  rw [h21, h22]
  set t' : SymbolicTerm := ⟨c, m.2.1, m.2.2⟩ with ht'
  -- the canonical candidate has a sorted operator string
  have hsorted : t'.ops.Sorted OpLeR := by
    show m.2.2.Sorted OpLeR
    rw [← hρm, variantOf_ops]
    exact sortOpsSigned_sorted _
  -- … and slot-canonical tensor factors
  have htcanon : slotSortTensors t'.tensors = (1, t'.tensors) := by
    show slotSortTensors m.2.1 = (1, m.2.1)
    rw [← hρm, variantOf_tensors]
    exact slotSortTensors_stable _
  -- the identity candidate of the second pass
  have hidmem : (repIndices t').zip (repIndices t') ∈ relabelings t' :=
    zip_self_mem_relabelings t'
  have hidvar : variantOf t' ((repIndices t').zip (repIndices t')) =
      (1, t'.tensors, t'.ops) := variantOf_zip_self_of_canonical hsorted htcanon
  have hidvar' : variantOf t' ((repIndices t').zip (repIndices t')) =
      (1, m.2.1, m.2.2) := hidvar
  -- second pass
  rcases hmap' : (relabelings t').map (variantOf t') with _ | ⟨v', vs'⟩
  · exact absurd hmap' (relabelings_map_ne_nil t')
  have hcc' := canonCore_eq hmap'
  set m' := pickMinVar v' vs' with hm'
  -- every second-pass candidate is a first-pass candidate with composed sign
  have hback : ∀ w ∈ v' :: vs', ∃ u ∈ v :: vs, u.2 = w.2 ∧ u.1 = w.1 * m.1 := by
    intro w hw
    rw [← hmap'] at hw
    obtain ⟨τ, hτ, hτw⟩ := List.mem_map.mp hw
    have hτ' : τ ∈ relabelings
        ⟨c, (variantOf t ρ).2.1, (variantOf t ρ).2.2⟩ := by
      rw [hρm]
      exact hτ
    obtain ⟨γ, hγ, hγf⟩ := relabeling_comp hρ hτ'
    obtain ⟨hinjτ, _, _, hckτ, _⟩ := relabeling_props hτ'
    have hfieldτ : ∀ i, (assocApply τ i).field = i.field :=
      fun i => classKey_field (hckτ i)
    have ht'tens : t'.tensors =
        (slotSortTensors (t.tensors.map (mapTensor (assocApply ρ)))).2 := by
      show m.2.1 = _
      rw [← hρm, variantOf_tensors]
    have ht'ops : t'.ops =
        (sortOpsSigned (t.ops.map (mapOp (assocApply ρ)))).2 := by
      show m.2.2 = _
      rw [← hρm, variantOf_ops]
    have hmapγ : ∀ (X : List Operator),
        (X.map (mapOp (assocApply ρ))).map (mapOp (assocApply τ)) =
          X.map (mapOp (assocApply γ)) := by
      intro X
      rw [List.map_map, ← mapOp_comp, ← hγf]
    have hmapγT : ∀ (Y : List TensorFactor),
        Y.map (mapTensor (assocApply τ ∘ assocApply ρ)) =
          Y.map (mapTensor (assocApply γ)) := by
      intro Y
      rw [← hγf]
    refine ⟨variantOf t γ, ?_, ?_, ?_⟩
    · rw [← hmap]
      exact List.mem_map_of_mem _ hγ
    · -- the signatures agree
      rw [← hτw]
      have htens : (variantOf t γ).2.1 = (variantOf t' τ).2.1 := by
        rw [variantOf_tensors, variantOf_tensors, ht'tens]
        rw [(slotSortTensors_map_comp (assocApply ρ) (assocApply τ) hinjτ
          t.tensors).2, hmapγT]
      have hops : (variantOf t γ).2.2 = (variantOf t' τ).2.2 := by
        rw [variantOf_ops, variantOf_ops, ht'ops]
        apply sortOpsSigned_eq_of_perm
        have h1 : ((sortOpsSigned (t.ops.map (mapOp (assocApply ρ)))).2.map
            (mapOp (assocApply τ))).Perm
              ((t.ops.map (mapOp (assocApply ρ))).map (mapOp (assocApply τ))) :=
          (sortOpsSigned_perm _).map _
        rw [hmapγ t.ops] at h1
        exact h1.symm
      cases hsig : (variantOf t γ).2 with
      | mk a b =>
        cases hsig' : (variantOf t' τ).2 with
        | mk a' b' =>
          rw [hsig, hsig'] at htens hops
          simp only at htens hops
          simp [htens, hops]
    · -- the signs compose
      rw [← hτw, ← hρm, variantOf_sign, variantOf_sign, variantOf_sign,
        ht'tens, ht'ops, mul_mul_mul_comm]
      have hopsc := sortOpsSigned_sign_comp hinjτ hfieldτ
        (t.ops.map (mapOp (assocApply ρ)))
      rw [hmapγ t.ops] at hopsc
      have hslotc := (slotSortTensors_map_comp (assocApply ρ) (assocApply τ)
        hinjτ t.tensors).1
      rw [hmapγT t.tensors] at hslotc
      rw [hopsc, hslotc]
  -- the second-pass minimum has the first-pass minimal signature
  have hmkey : variantKey m' = variantKey (1, m.2.1, m.2.2) := by
    apply natListLt_connex
    · -- m' is not below the identity candidate, which is not below m
      obtain ⟨u, hu, hus, _⟩ := hback m' (pickMinVar_mem v' vs')
      have h1 : natListLt (variantKey u) (variantKey m) = false :=
        pickMinVar_min v vs u hu
      have h2 : variantKey u = variantKey m' := by
        rw [variantKey_expand, variantKey_expand, hus]
      have h3 : variantKey (1, m.2.1, m.2.2) = variantKey m := by
        rw [variantKey_expand, variantKey_expand]
      rw [← h2, h3]
      exact h1
    · -- the identity candidate is not below m'
      have hidin : (1, m.2.1, m.2.2) ∈ v' :: vs' := by
        rw [← hmap', ← hidvar']
        exact List.mem_map_of_mem _ hidmem
      exact pickMinVar_min v' vs' _ hidin
  have hmsig : m'.2 = (m.2.1, m.2.2) := variantKey_inj hmkey
  -- the second pass sees its minimum with sign +1 (the identity candidate)
  have hasP2 : (v' :: vs').any
      (fun w => decide (w.2 = m'.2) && decide (w.1 = 1)) = true := by
    apply List.any_eq_true.mpr
    refine ⟨(1, m.2.1, m.2.2), ?_, ?_⟩
    · rw [← hmap', ← hidvar']
      exact List.mem_map_of_mem _ hidmem
    · simp [hmsig]
  constructor
  · rw [hcc']
    show (m'.2.1, m'.2.2) = (m.2.1, m.2.2)
    rw [show m'.2.1 = m.2.1 from congrArg Prod.fst hmsig,
      show m'.2.2 = m.2.2 from congrArg Prod.snd hmsig]
  · intro hs
    -- a second-pass sign −1 at the minimum would cancel the first pass
    have hasM2 : (v' :: vs').any
        (fun w => decide (w.2 = m'.2) && decide (w.1 = -1)) = false := by
      rcases hM : (v' :: vs').any
          (fun w => decide (w.2 = m'.2) && decide (w.1 = -1)) with _ | _
      · rfl
      · exfalso
        obtain ⟨w, hw, hder⟩ := List.any_eq_true.mp hM
        simp only [Bool.and_eq_true, decide_eq_true_eq] at hder
        obtain ⟨u, hu, hu2, hu1⟩ := hback w hw
        have hu2' : u.2 = m.2 := by rw [hu2, hder.1, hmsig]
        have hu1' : u.1 = -m.1 := by rw [hu1, hder.2, neg_one_mul]
        have hm1pm : m.1 = 1 ∨ m.1 = -1 := by
          rw [← hρm]
          exact variantOf_sign_pm t ρ
        have hmm : m ∈ v :: vs := pickMinVar_mem v vs
        apply hs
        rw [hcc]
        rcases hm1pm with h1 | h1
        · have hP : (v :: vs).any
              (fun x => decide (x.2 = m.2) && decide (x.1 = 1)) = true :=
            List.any_eq_true.mpr ⟨m, hmm, by simp [h1]⟩
          have hM1 : (v :: vs).any
              (fun x => decide (x.2 = m.2) && decide (x.1 = -1)) = true :=
            List.any_eq_true.mpr ⟨u, hu, by simp [hu2', hu1', h1]⟩
          simp [hP, hM1]
        · have hP : (v :: vs).any
              (fun x => decide (x.2 = m.2) && decide (x.1 = 1)) = true :=
            List.any_eq_true.mpr ⟨u, hu, by simp [hu2', hu1', h1]⟩
          have hM1 : (v :: vs).any
              (fun x => decide (x.2 = m.2) && decide (x.1 = -1)) = true :=
            List.any_eq_true.mpr ⟨m, hmm, by simp [h1]⟩
          simp [hP, hM1]
    rw [hcc', hasP2, hasM2]
    simp only [Bool.and_false, Bool.false_eq_true, if_false, if_true]
    rw [show m'.2.1 = m.2.1 from congrArg Prod.fst hmsig,
      show m'.2.2 = m.2.2 from congrArg Prod.snd hmsig]

theorem hasPauli_map {f : Index → Index} (hf : Function.Injective f)
    (hfield : ∀ i, (f i).field = i.field) (ops : List Operator) :
    hasPauli (ops.map (mapOp f)) = hasPauli ops := by
  rcases h : hasPauli ops with _ | _
  · rcases h' : hasPauli (ops.map (mapOp f)) with _ | _
    · rfl
    · obtain ⟨a, hfa, hca⟩ := hasPauli_iff.mp h'
      have hmem : a ∈ ops.map (mapOp f) := List.count_pos_iff.mp (by omega)
      obtain ⟨b, hb, rfl⟩ := List.mem_map.mp hmem
      rw [List.count_map_of_injective _ _ (mapOp_injective hf)] at hca
      have hfb : b.index.field = FieldType.fermion := by
        rw [← hfield b.index]
        exact hfa
      rw [← h]
      exact (hasPauli_iff.mpr ⟨b, hfb, hca⟩).symm
  · obtain ⟨a, hfa, hca⟩ := hasPauli_iff.mp h
    apply hasPauli_iff.mpr
    refine ⟨mapOp f a, ?_, ?_⟩
    · show (f a.index).field = FieldType.fermion
      rw [hfield a.index]
      exact hfa
    · rw [List.count_map_of_injective _ _ (mapOp_injective hf)]
      exact hca

theorem canonCore_ops_shape (t : SymbolicTerm) :
    ∃ ρ ∈ relabelings t,
      (canonCore t).2.2 = (sortOpsSigned (t.ops.map (mapOp (assocApply ρ)))).2 ∧
      (canonCore t).2.1 =
        (slotSortTensors (t.tensors.map (mapTensor (assocApply ρ)))).2 := by
  rcases hmap : (relabelings t).map (variantOf t) with _ | ⟨v, vs⟩
  · exact absurd hmap (relabelings_map_ne_nil t)
  have hcc := canonCore_eq hmap
  have hmmem : pickMinVar v vs ∈ v :: vs := pickMinVar_mem v vs
  rw [← hmap] at hmmem
  obtain ⟨ρ, hρ, hρm⟩ := List.mem_map.mp hmmem
  refine ⟨ρ, hρ, ?_, ?_⟩
  · rw [hcc]
    show (pickMinVar v vs).2.2 = _
    rw [← hρm, variantOf_ops]
  · rw [hcc]
    show (pickMinVar v vs).2.1 = _
    rw [← hρm, variantOf_tensors]

theorem canonCore_ops_sorted (t : SymbolicTerm) :
    (canonCore t).2.2.Sorted OpLeR := by
  obtain ⟨ρ, _, hops, _⟩ := canonCore_ops_shape t
  rw [hops]
  exact sortOpsSigned_sorted _

theorem hasPauli_canonCore (t : SymbolicTerm) :
    hasPauli (canonCore t).2.2 = hasPauli t.ops := by
  obtain ⟨ρ, hρ, hops, _⟩ := canonCore_ops_shape t
  obtain ⟨hinj, _, _, hck, _⟩ := relabeling_props hρ
  rw [hops, hasPauli_eq_of_perm (sortOpsSigned_perm _)]
  exact hasPauli_map hinj (fun i => classKey_field (hck i)) t.ops

theorem mulSign_one (c : ℚ) : mulSign 1 c = c := rfl

theorem mulSignZ_one (c : ℚ) : mulSignZ 1 c = c := rfl

theorem mulSignZ_coeff_zero (s : Int) : mulSignZ s 0 = 0 := by
  unfold mulSignZ
  by_cases h1 : s = 1
  · rw [if_pos h1]
  · rw [if_neg h1]
    by_cases h2 : s = -1
    · rw [if_pos h2, neg_zero]
    · rw [if_neg h2]

theorem mulSignZ_zero (c : ℚ) : mulSignZ 0 c = 0 := by
  unfold mulSignZ
  simp

/-- Stability of term canonicalization: canonicalizing a canonical term
reproduces it unchanged.  A cancelled term (Pauli or self-negating, both with
coefficient 0) stays cancelled; a surviving term re-reaches its
representative with sign +1. -/
theorem canonTerm_stable {t u : SymbolicTerm} (h : canonTerm t = some u) :
    canonTerm u = some u := by
  unfold canonTerm at h
  by_cases hbc : hasBosonCollision t.ops = true
  · rw [if_pos hbc] at h
    exact absurd h (by simp)
  · rw [if_neg hbc] at h
    simp only [Option.some.injEq] at h
    subst h
    have hsorted : (canonCore t).2.2.Sorted OpLeR := canonCore_ops_sorted t
    have hbc' : hasBosonCollision (canonCore t).2.2 = false :=
      hasBosonCollision_of_sorted hsorted
    have hpauli : hasPauli (canonCore t).2.2 = hasPauli t.ops :=
      hasPauli_canonCore t
    set c0 : ℚ :=
      if hasPauli t.ops = true then 0 else mulSignZ (canonCore t).1 t.coeff
      with hc0
    obtain ⟨hsig, hsgn⟩ := canonCore_stable t c0
    unfold canonTerm
    simp only [hbc', Bool.false_eq_true, if_false, hpauli]
    rcases hp : hasPauli t.ops with _ | _
    · simp only [Bool.false_eq_true, if_false]
      by_cases hz : (canonCore t).1 = 0
      · -- the term was cancelled: the coefficient is 0 and stays 0
        have hc00 : c0 = 0 := by
          rw [hc0, hp]
          simp only [Bool.false_eq_true, if_false]
          rw [hz, mulSignZ_zero]
        rw [hsig, hc00, mulSignZ_coeff_zero]
      · -- a surviving term: the second pass reports sign +1
        have hone := hsgn hz
        rw [hone]
        simp [mulSignZ_one]
    · -- a Pauli term: the coefficient is 0 and stays 0
      simp only [if_true]
      have hc00 : c0 = 0 := by
        rw [hc0, hp]
        simp
      rw [hsig, hc00]

/-! ## Expression-level canonicalization (§4.3)

Per §4.3, `Expression::canonicalize()` canonicalizes every term, sorts the
terms by their canonical key, merges terms with identical (tensor-factor
pattern, operator string) signatures by adding coefficients, and drops terms
with coefficient exactly zero (per the §3 SymbolicTerm invariant a zero
coefficient makes a term canonically zero, so zero-coefficient terms are also
dropped before the sort). -/

/-- Canonicalize a list of terms; fails if any term is rejected (§7
*ambiguous-contraction*). -/
def canonTerms : List SymbolicTerm → Option (List SymbolicTerm)
  | [] => some []
  | t :: l =>
    match canonTerm t, canonTerms l with
    | some t', some l' => some (t' :: l')
    | _, _ => none

/-- Remove the terms whose coefficient is exactly zero. -/
def dropZeros (l : List SymbolicTerm) : List SymbolicTerm :=
  l.filter (fun t => !decide (t.coeff = 0))

/-- Insertion of a term into a term list sorted by the canonical term key. -/
def insertTerm (t : SymbolicTerm) : List SymbolicTerm → List SymbolicTerm
  | [] => [t]
  | u :: l => if termLe t u then t :: u :: l else u :: insertTerm t l

/-- Sort the terms by the total order on (operator-string key, tensor-factor
key). -/
def sortTerms : List SymbolicTerm → List SymbolicTerm
  | [] => []
  | t :: l => insertTerm t (sortTerms l)

/-- Merge a term into a merged term list whose head, if any, opens the run of
the term's signature: equal signatures add their coefficients. -/
def mergeAux (t : SymbolicTerm) : List SymbolicTerm → List SymbolicTerm
  | [] => [t]
  | u :: l =>
    if termSig t = termSig u then ⟨t.coeff + u.coeff, t.tensors, t.ops⟩ :: l
    else t :: u :: l

/-- Merge all runs of equal-signature terms (the input being sorted, equal
signatures are adjacent). -/
def mergeRuns : List SymbolicTerm → List SymbolicTerm
  | [] => []
  | t :: l => mergeAux t (mergeRuns l)

/-- Modelled from the spec (§4.3): expression canonicalization — per-term
canonicalization, zero-term removal, sort by canonical key, merge of
equal-signature runs, and removal of cancelled (zero) terms.  `none` reports
the §7 *ambiguous-contraction* rejection. -/
def Expression.canonicalize (E : Expression) : Option Expression :=
  (canonTerms E.terms).map
    (fun l => ⟨dropZeros (mergeRuns (sortTerms (dropZeros l)))⟩)

/-- The canonical term order, as a proposition. -/
def TermLeR (s t : SymbolicTerm) : Prop := termLe s t = true

/-- The strict canonical term order, as a proposition. -/
def TermLtR (s t : SymbolicTerm) : Prop := termLt s t = true

instance : DecidableRel TermLeR := fun s t => decEq (termLe s t) true

instance : DecidableRel TermLtR := fun s t => decEq (termLt s t) true

instance : IsTrans SymbolicTerm TermLeR :=
  ⟨fun _ _ _ h1 h2 => natListLe_trans h1 h2⟩

instance : IsTrans SymbolicTerm TermLtR :=
  ⟨fun _ _ _ h1 h2 => natListLt_trans h1 h2⟩

instance : IsTotal SymbolicTerm TermLeR := ⟨fun s t => natListLe_total _ _⟩

theorem termLt_of_le_of_sig_ne {s t : SymbolicTerm} (h : TermLeR s t)
    (hne : termSig s ≠ termSig t) : TermLtR s t := by
  apply natListLt_of_le_of_ne h
  intro hk
  exact hne (termKey_eq_iff_sig_eq.mp hk)

theorem termSig_ne_of_lt {s t : SymbolicTerm} (h : TermLtR s t) :
    termSig s ≠ termSig t := by
  intro hs
  have hk := termKey_eq_iff_sig_eq.mpr hs
  unfold TermLtR termLt at h
  rw [hk] at h
  rw [natListLt_irrefl] at h
  exact absurd h (by simp)

theorem termLe_of_lt {s t : SymbolicTerm} (h : TermLtR s t) : TermLeR s t := by
  unfold TermLeR termLe natListLe
  unfold TermLtR at h
  simp [h, termLt] at h ⊢
  exact Or.inr h

open List in
theorem insertTerm_perm (t : SymbolicTerm) (l : List SymbolicTerm) :
    (insertTerm t l).Perm (t :: l) := by
  induction l with
  | nil => simp [insertTerm]
  | cons u l ih =>
    by_cases h : termLe t u
    · simp [insertTerm, h]
    · simp only [insertTerm, h, if_false]
      calc u :: insertTerm t l ~ u :: t :: l := ih.cons u
        _ ~ t :: u :: l := List.Perm.swap t u l

open List in
theorem sortTerms_perm (l : List SymbolicTerm) : (sortTerms l).Perm l := by
  induction l with
  | nil => simp [sortTerms]
  | cons t l ih =>
    calc sortTerms (t :: l) ~ t :: sortTerms l := insertTerm_perm t (sortTerms l)
      _ ~ t :: l := ih.cons t

theorem insertTerm_sorted {t : SymbolicTerm} {l : List SymbolicTerm}
    (h : l.Sorted TermLeR) : (insertTerm t l).Sorted TermLeR := by
  induction l with
  | nil => simp [insertTerm, List.Sorted]
  | cons u l ih =>
    by_cases htu : termLe t u
    · simp only [insertTerm, htu, if_true]
      refine List.sorted_cons.mpr ⟨?_, h⟩
      intro c hc
      rcases List.mem_cons.mp hc with rfl | hc'
      · exact htu
      · exact natListLe_trans htu (List.rel_of_sorted_cons h c hc')
    · simp only [insertTerm, htu, if_false]
      have hut : termLe u t = true := (natListLe_total _ _).resolve_left (by simpa [termLe] using htu)
      refine List.sorted_cons.mpr ⟨?_, ih (List.sorted_cons.mp h).2⟩
      intro c hc
      have hc2 := (insertTerm_perm t l).mem_iff.mp hc
      rcases List.mem_cons.mp hc2 with rfl | hc'
      · exact hut
      · exact List.rel_of_sorted_cons h c hc'

theorem sortTerms_sorted (l : List SymbolicTerm) :
    (sortTerms l).Sorted TermLeR := by
  induction l with
  | nil => simp [sortTerms, List.Sorted]
  | cons t l ih => exact insertTerm_sorted ih

theorem sortTerms_of_sorted : {l : List SymbolicTerm} → l.Sorted TermLeR →
    sortTerms l = l := by
  intro l h
  induction l with
  | nil => rfl
  | cons t l ih =>
    have ht := ih (List.sorted_cons.mp h).2
    simp only [sortTerms, ht]
    cases l with
    | nil => rfl
    | cons u m =>
      have htu : termLe t u = true := List.rel_of_sorted_cons h u (by simp)
      simp [insertTerm, htu]

/-- Every merged term takes its signature from some input term. -/
theorem mergeRuns_sigs {l : List SymbolicTerm} :
    ∀ u ∈ mergeRuns l, ∃ t ∈ l, termSig u = termSig t := by
  induction l with
  | nil => simp [mergeRuns]
  | cons t l ih =>
    intro u hu
    simp only [mergeRuns] at hu
    rcases hm : mergeRuns l with _ | ⟨w, m⟩
    · rw [hm] at hu
      simp only [mergeAux, List.mem_singleton] at hu
      exact ⟨t, by simp, by rw [hu]⟩
    · rw [hm] at hu
      by_cases hsig : termSig t = termSig w
      · simp only [mergeAux, hsig, if_true] at hu
        rcases List.mem_cons.mp hu with heq | hu'
        · refine ⟨t, by simp, ?_⟩
          rw [heq]
          simp [termSig]
        · obtain ⟨t', ht', hs⟩ := ih u (by rw [hm]; exact List.mem_cons_of_mem w hu')
          exact ⟨t', List.mem_cons_of_mem t ht', hs⟩
      · simp only [mergeAux, hsig, if_false] at hu
        rcases List.mem_cons.mp hu with heq | hu'
        · exact ⟨t, by simp, by rw [heq]⟩
        · obtain ⟨t', ht', hs⟩ := ih u (by rw [hm]; exact hu')
          exact ⟨t', List.mem_cons_of_mem t ht', hs⟩

theorem natListLe_lt_trans {l m k : List Nat} (h1 : natListLe l m = true)
    (h2 : natListLt m k = true) : natListLt l k = true := by
  simp only [natListLe, Bool.or_eq_true, decide_eq_true_eq] at h1
  rcases h1 with rfl | h1
  · exact h2
  · exact natListLt_trans h1 h2

theorem termKey_coeff_irrelevant (c : ℚ) (t : SymbolicTerm) :
    termKey ⟨c, t.tensors, t.ops⟩ = termKey t := rfl

theorem mergeAux_pairwise {t : SymbolicTerm} {m : List SymbolicTerm}
    (hm : m.Pairwise TermLtR) (hle : ∀ w ∈ m, TermLeR t w) :
    (mergeAux t m).Pairwise TermLtR := by
  cases m with
  | nil => simp [mergeAux]
  | cons u m' =>
    by_cases hsig : termSig t = termSig u
    · simp only [mergeAux, hsig, if_true]
      rw [List.pairwise_cons] at hm ⊢
      refine ⟨?_, hm.2⟩
      intro w hw
      have hkey : termKey (⟨t.coeff + u.coeff, t.tensors, t.ops⟩ : SymbolicTerm) =
          termKey u := by
        rw [termKey_coeff_irrelevant]
        exact termKey_eq_iff_sig_eq.mpr hsig
      show termLt _ w = true
      unfold termLt
      rw [hkey]
      exact hm.1 w hw
    · simp only [mergeAux, hsig, if_false]
      rw [List.pairwise_cons]
      refine ⟨?_, hm⟩
      intro w hw
      rcases List.mem_cons.mp hw with rfl | hw'
      · exact termLt_of_le_of_sig_ne (hle w (by simp)) hsig
      · have htu : TermLeR t u := hle u (by simp)
        have huw : TermLtR u w := (List.pairwise_cons.mp hm).1 w hw'
        exact natListLe_lt_trans htu huw

theorem mergeRuns_pairwise {l : List SymbolicTerm} (h : l.Sorted TermLeR) :
    (mergeRuns l).Pairwise TermLtR := by
  induction l with
  | nil => simp [mergeRuns]
  | cons t l ih =>
    simp only [mergeRuns]
    apply mergeAux_pairwise (ih (List.sorted_cons.mp h).2)
    intro w hw
    obtain ⟨v, hv, hs⟩ := mergeRuns_sigs w hw
    have hkey : termKey w = termKey v := termKey_eq_iff_sig_eq.mpr hs
    show termLe t w = true
    unfold termLe
    rw [hkey]
    exact (List.sorted_cons.mp h).1 v hv

theorem mergeRuns_of_pairwise : {l : List SymbolicTerm} →
    l.Pairwise TermLtR → mergeRuns l = l := by
  intro l h
  induction l with
  | nil => rfl
  | cons t l ih =>
    simp only [mergeRuns, ih (List.pairwise_cons.mp h).2]
    cases l with
    | nil => rfl
    | cons u m =>
      have hlt : TermLtR t u := (List.pairwise_cons.mp h).1 u (by simp)
      have hsig := termSig_ne_of_lt hlt
      simp [mergeAux, hsig]

theorem mem_dropZeros {u : SymbolicTerm} {l : List SymbolicTerm} :
    u ∈ dropZeros l ↔ u ∈ l ∧ u.coeff ≠ 0 := by
  simp [dropZeros, List.mem_filter]

theorem dropZeros_of_nonzero {l : List SymbolicTerm}
    (h : ∀ u ∈ l, u.coeff ≠ 0) : dropZeros l = l := by
  apply List.filter_eq_self.mpr
  intro u hu
  simpa using h u hu

theorem dropZeros_pairwise {l : List SymbolicTerm}
    (h : l.Pairwise TermLtR) : (dropZeros l).Pairwise TermLtR :=
  h.sublist (List.filter_sublist l)

theorem canonTerms_mem : {l l' : List SymbolicTerm} → canonTerms l = some l' →
    ∀ u ∈ l', ∃ t ∈ l, canonTerm t = some u := by
  intro l
  induction l with
  | nil =>
    intro l' h u hu
    simp only [canonTerms, Option.some.injEq] at h
    rw [← h] at hu
    exact absurd hu (List.not_mem_nil u)
  | cons t l ih =>
    intro l' h u hu
    simp only [canonTerms] at h
    rcases ht : canonTerm t with _ | t' <;> rw [ht] at h
    · exact absurd h (by simp)
    · rcases hl : canonTerms l with _ | l'' <;> rw [hl] at h
      · exact absurd h (by simp)
      · simp only [Option.some.injEq] at h
        rw [← h] at hu
        rcases List.mem_cons.mp hu with rfl | hu'
        · exact ⟨t, by simp, ht⟩
        · obtain ⟨v, hv, hc⟩ := ih hl u hu'
          exact ⟨v, List.mem_cons_of_mem t hv, hc⟩

theorem canonTerms_of_fixed : {l : List SymbolicTerm} →
    (∀ t ∈ l, canonTerm t = some t) → canonTerms l = some l := by
  intro l h
  induction l with
  | nil => rfl
  | cons t l ih =>
    simp only [canonTerms]
    rw [h t (by simp), ih (fun v hv => h v (List.mem_cons_of_mem t hv))]

/-- Unfolding of term canonicalization in the accepted case. -/
theorem canonTerm_of_no_collision {t : SymbolicTerm}
    (h : hasBosonCollision t.ops = false) :
    canonTerm t = some ⟨if hasPauli t.ops = true then 0
        else mulSignZ (canonCore t).1 t.coeff,
      (canonCore t).2.1, (canonCore t).2.2⟩ := by
  unfold canonTerm
  rw [h]
  simp

/-- Signature stability: any coefficient attached to a canonical
signature that survived (non-Pauli, not cancelled) is left unchanged by term
canonicalization. -/
theorem canonTerm_sig_stable {t t' : SymbolicTerm} (h : canonTerm t = some t')
    (hnp : hasPauli t'.ops = false) (hs : (canonCore t).1 ≠ 0) (c : ℚ) :
    canonTerm ⟨c, t'.tensors, t'.ops⟩ = some ⟨c, t'.tensors, t'.ops⟩ := by
  unfold canonTerm at h
  by_cases hbc : hasBosonCollision t.ops = true
  · rw [if_pos hbc] at h
    exact absurd h (by simp)
  · rw [if_neg hbc] at h
    simp only [Option.some.injEq] at h
    subst h
    simp only at hnp
    have hsorted := canonCore_ops_sorted t
    have hbc' : hasBosonCollision (canonCore t).2.2 = false :=
      hasBosonCollision_of_sorted hsorted
    have hstable := (canonCore_stable t c).2 hs
    have hbc2 : hasBosonCollision
        (SymbolicTerm.mk c (canonCore t).2.1 (canonCore t).2.2).ops = false := hbc'
    rw [canonTerm_of_no_collision hbc2, hstable]
    simp [hnp, mulSignZ_one]

/-- The terms of a canonicalized Expression are canonical fixed points with
nonzero coefficients, pairwise strictly ordered (hence with pairwise distinct
signatures). -/
theorem canonicalize_out_fixed {E E' : Expression}
    (h : E.canonicalize = some E') :
    (∀ u ∈ E'.terms, canonTerm u = some u ∧ u.coeff ≠ 0) ∧
      E'.terms.Pairwise TermLtR := by
  unfold Expression.canonicalize at h
  rcases hct : canonTerms E.terms with _ | l <;> rw [hct] at h
  · exact absurd h (by simp)
  · simp only [Option.map_some', Option.some.injEq] at h
    have hterms : E'.terms = dropZeros (mergeRuns (sortTerms (dropZeros l))) := by
      rw [← h]
    constructor
    · intro u hu
      rw [hterms] at hu
      obtain ⟨hu1, hu2⟩ := mem_dropZeros.mp hu
      refine ⟨?_, hu2⟩
      obtain ⟨w, hw, hsig⟩ := mergeRuns_sigs u hu1
      have hw2 : w ∈ dropZeros l := (sortTerms_perm _).mem_iff.mp hw
      obtain ⟨hwl, hwnz⟩ := mem_dropZeros.mp hw2
      obtain ⟨t0, ht0, hct0⟩ := canonTerms_mem hct w hwl
      -- w is neither a Pauli term nor a cancelled (self-negating) term, else
      -- its coefficient would be zero
      have hkey : hasPauli w.ops = false ∧ (canonCore t0).1 ≠ 0 := by
        unfold canonTerm at hct0
        by_cases hbc : hasBosonCollision t0.ops = true
        · rw [if_pos hbc] at hct0
          exact absurd hct0 (by simp)
        · rw [if_neg hbc] at hct0
          simp only [Option.some.injEq] at hct0
          rcases hp : hasPauli t0.ops with _ | _
          · constructor
            · rw [← hct0]
              simp only
              rw [hasPauli_canonCore t0]
              exact hp
            · intro hz
              apply hwnz
              rw [← hct0]
              simp only
              rw [hp]
              simp only [Bool.false_eq_true, if_false]
              rw [hz, mulSignZ_zero]
          · exfalso
            apply hwnz
            rw [← hct0]
            simp [hp]
      -- transfer the fixed point along the shared signature
      have hsig' : u.tensors = w.tensors ∧ u.ops = w.ops := by
        simp only [termSig, Prod.mk.injEq] at hsig
        exact hsig
      have hu_eta : u = ⟨u.coeff, w.tensors, w.ops⟩ := by
        rw [← hsig'.1, ← hsig'.2]
      rw [hu_eta]
      exact canonTerm_sig_stable hct0 hkey.1 hkey.2 u.coeff
    · rw [hterms]
      exact dropZeros_pairwise (mergeRuns_pairwise (sortTerms_sorted _))

/-- Idempotence of expression canonicalization. -/
theorem canonicalize_idem {E E' : Expression} (h : E.canonicalize = some E') :
    E'.canonicalize = some E' := by
  obtain ⟨hfix, hpw⟩ := canonicalize_out_fixed h
  unfold Expression.canonicalize
  rw [canonTerms_of_fixed (fun t ht => (hfix t ht).1)]
  simp only [Option.map_some', Option.some.injEq]
  have h1 : dropZeros E'.terms = E'.terms :=
    dropZeros_of_nonzero (fun u hu => (hfix u hu).2)
  have hsorted : E'.terms.Sorted TermLeR :=
    hpw.imp (fun hab => termLe_of_lt hab)
  rw [h1, sortTerms_of_sorted hsorted, mergeRuns_of_pairwise hpw, h1]

/-! ## Adjoint, reindex, and equality (§4.3) -/

/-- Flip a creation operator into an annihilation operator and conversely. -/
def Operator.adjoint (o : Operator) : Operator :=
  ⟨match o.kind with
    | OperatorKind.creation => OperatorKind.annihilation
    | OperatorKind.annihilation => OperatorKind.creation,
   o.index⟩

/-- Modelled from the spec (§4.3): the adjoint of a term reverses its
operator string and flips each creation/annihilation kind; the coefficient is
conjugated, which over the exact rational scalars of this model is the
identity. -/
def SymbolicTerm.adjoint (t : SymbolicTerm) : SymbolicTerm :=
  ⟨t.coeff, t.tensors, (t.ops.map Operator.adjoint).reverse⟩

/-- Modelled from the spec (§4.3): `adjoint()` returns a new Expression with
every operator string reversed and every kind flipped; it does not
auto-canonicalize. -/
def Expression.adjoint (E : Expression) : Expression :=
  ⟨E.terms.map SymbolicTerm.adjoint⟩

theorem opAdjoint_invol (o : Operator) : o.adjoint.adjoint = o := by
  cases o with
  | mk k i => cases k <;> rfl

theorem termAdjoint_invol (t : SymbolicTerm) :
    t.adjoint.adjoint = t := by
  cases t with
  | mk c T ops =>
    simp only [SymbolicTerm.adjoint, SymbolicTerm.mk.injEq, true_and]
    rw [List.map_reverse, List.reverse_reverse, List.map_map]
    have : (Operator.adjoint ∘ Operator.adjoint) = id := by
      funext o
      exact opAdjoint_invol o
    rw [this, List.map_id]

theorem exprAdjoint_invol (E : Expression) :
    E.adjoint.adjoint = E := by
  cases E with
  | mk terms =>
    simp only [Expression.adjoint, List.map_map, Expression.mk.injEq]
    have : (SymbolicTerm.adjoint ∘ SymbolicTerm.adjoint) = id := by
      funext t
      exact termAdjoint_invol t
    rw [this, List.map_id]

/-- Modelled from the spec (§4.3): `reindex` applies a caller-supplied
Index-to-Index substitution to every term. -/
def Expression.reindex (m : List (Index × Index)) (E : Expression) : Expression :=
  ⟨E.terms.map (fun t =>
    ⟨t.coeff, t.tensors.map (mapTensor (assocApply m)),
     t.ops.map (mapOp (assocApply m))⟩)⟩

/-- Modelled from the spec (§4.3): `operator==` canonicalizes both operands
on copies and compares the canonical term sequences structurally; a rejected
(non-canonicalizable) operand compares unequal. -/
def Expression.eqExpr (a b : Expression) : Bool :=
  match a.canonicalize, b.canonicalize with
  | some a', some b' => decide (a'.terms = b'.terms)
  | _, _ => false

/-! ## Method-call semantics (§4.3, `expression.h`)

The header declares `adjoint`, `vacuum_normal_ordered` and
`is_vacuum_normal_ordered` as `const` member functions, while
`canonicalize()` and `reindex()` mutate the receiver and return a reference
to it.  A method call is modelled as a function from the receiver state to
the pair (receiver state after the call, returned value). -/

/-- Method-call model of `Expression::adjoint() const`. -/
def adjointMethod (E : Expression) : Expression × Expression :=
  (E, E.adjoint)

/-- Method-call model of `Expression::canonicalize()` (mutating; the result
is the reference to the mutated receiver); `none` models the §7 rejection. -/
def canonicalizeMethod (E : Expression) : Option (Expression × Expression) :=
  E.canonicalize.map (fun E' => (E', E'))

/-- Method-call model of `Expression::reindex(idx_map)` (mutating; returns
the reference to the mutated receiver). -/
def reindexMethod (m : List (Index × Index)) (E : Expression) :
    Expression × Expression :=
  (E.reindex m, E.reindex m)

/-! ## Wick vacuum normal ordering (§4.2)

`vacuum_normal_ordered` repeatedly resolves adjacent out-of-order pairs — a
creation operator immediately left of an annihilation operator, the only
pattern violating the header's "annihilation left of creation" vacuum
convention.  Each resolution swaps the pair (−1 for a fermionic pair, +1 for
bosonic or mixed-field pairs, which commute) and, when the two operators can
contract (per §4.2 "compatible subspaces", modelled as equal index class; or
the exact same Index when `only_same_index_contractions` is set), also emits
the contracted term: the pair removed, replaced by a Kronecker-delta tensor
(or by a pure scalar when the two indices are literally equal), with sign +1
for fermions (anticommutator) and −1 for bosons (commutator).  The recursion
is bounded: each swap removes one creation-annihilation inversion and each
contraction removes two operators, so the explicit fuel
`invCount ops + ops.length + 1` always suffices (§5 termination). -/

/-- Number of annihilation operators in a string. -/
def countAnn (l : List Operator) : Nat :=
  (l.filter (fun b => decide (b.kind = OperatorKind.annihilation))).length

/-- Number of (creation, later annihilation) inversions: the pairs violating
the vacuum convention. -/
def invCount : List Operator → Nat
  | [] => 0
  | a :: l =>
    (if a.kind = OperatorKind.creation then countAnn l else 0) + invCount l

/-- Find the leftmost adjacent (creation, annihilation) pair, returning the
prefix, the pair and the suffix. -/
def splitViol : List Operator →
    Option (List Operator × Operator × Operator × List Operator)
  | [] => none
  | [_] => none
  | a :: b :: rest =>
    if a.kind = OperatorKind.creation ∧ b.kind = OperatorKind.annihilation then
      some ([], a, b, rest)
    else
      (splitViol (b :: rest)).map (fun r => (a :: r.1, r.2.1, r.2.2.1, r.2.2.2))

/-- Whether two operators forming an out-of-order pair can contract (§4.2):
with `only_same_index_contractions`, only when they carry the exact same
Index; otherwise when their indices lie in the same (compatible) subspace
class. -/
def contractible (x y : Operator) (onlySame : Bool) : Bool :=
  if onlySame then decide (x.index = y.index)
  else decide (x.index.classKey = y.index.classKey)

/-- The sign of a contraction: +1 for fermions (anticommutation), −1 for
bosons (commutation). -/
def contrSign (x : Operator) : Int :=
  if x.index.field = FieldType.fermion then 1 else -1

/-- The Kronecker-delta tensor factor tying the two contracted indices. -/
def deltaTensor (x y : Operator) : TensorFactor :=
  ⟨'d', SymmetryType.nonsymmetric, [x.index], [y.index]⟩

/-- Modelled from the spec (§4.2): the fueled binary Wick expansion of one
term.  A term with no adjacent violation is a leaf; otherwise the leftmost
violating pair either swaps (with its sign) or, when contractible, also
splits off the contracted term.  `none` reports fuel exhaustion (never
reached when the fuel is at least `invCount ops + ops.length + 1`). -/
def expandOps (onlySame : Bool) :
    Nat → ℚ → List TensorFactor → List Operator → Option (List SymbolicTerm)
  | 0, _, _, _ => none
  | fuel + 1, c, T, ops =>
    match splitViol ops with
    | none => some [⟨c, T, ops⟩]
    | some (pre, x, y, post) =>
      let swapped := expandOps onlySame fuel (mulSign (swapSign x y) c) T
        (pre ++ y :: x :: post)
      if contractible x y onlySame then
        let ctensors := if x.index = y.index then T else T ++ [deltaTensor x y]
        let contracted := expandOps onlySame fuel (mulSign (contrSign x) c)
          ctensors (pre ++ post)
        match swapped, contracted with
        | some l1, some l2 => some (l1 ++ l2)
        | _, _ => none
      else swapped

/-- The Wick expansion of one term with its sufficient fuel. -/
def wickTerm (onlySame : Bool) (t : SymbolicTerm) : List SymbolicTerm :=
  (expandOps onlySame (invCount t.ops + t.ops.length + 1) t.coeff t.tensors
    t.ops).getD [t]

/-- Modelled from the spec (§4.2): `vacuum_normal_ordered` expands every term
by Wick's theorem and canonicalizes the flattened sum of all leaves (the
canonicalization of Wick leaves never hits the §7 rejection, so the fallback
of `getD` is never taken). -/
def Expression.vacuum_normal_ordered (E : Expression) (onlySame : Bool) :
    Expression :=
  let raw : Expression := ⟨(E.terms.map (wickTerm onlySame)).flatten⟩
  raw.canonicalize.getD raw

/-- Linear scan verifying the vacuum convention: no creation operator stands
anywhere left of an annihilation operator of the same field type (operators
of different field types commute, so the convention does not constrain their
relative order). -/
def opsVacuumOrdered : List Operator → Bool
  | [] => true
  | a :: l =>
    (if a.kind = OperatorKind.creation then
        l.all (fun b => !(decide (b.kind = OperatorKind.annihilation) &&
          decide (b.index.field = a.index.field)))
      else true) && opsVacuumOrdered l

/-- Modelled from the spec (§4.2): `is_vacuum_normal_ordered` checks, without
mutation, that every term's operator string satisfies the vacuum convention. -/
def Expression.is_vacuum_normal_ordered (E : Expression) : Bool :=
  E.terms.all (fun t => opsVacuumOrdered t.ops)

/-- Method-call model of `Expression::vacuum_normal_ordered(bool) const`. -/
def vacuumNormalOrderedMethod (E : Expression) (onlySame : Bool) :
    Expression × Expression :=
  (E, E.vacuum_normal_ordered onlySame)

/-- Method-call model of `Expression::is_vacuum_normal_ordered() const`. -/
def isVacuumNormalOrderedMethod (E : Expression) : Expression × Bool :=
  (E, E.is_vacuum_normal_ordered)

/-- The literal reading of the claim's description of the check: no
annihilation operator anywhere left of a creation operator. -/
def opsNoAnnBeforeCre : List Operator → Bool
  | [] => true
  | a :: l =>
    (if a.kind = OperatorKind.annihilation then
        l.all (fun b => !decide (b.kind = OperatorKind.creation))
      else true) && opsNoAnnBeforeCre l

/-! ## Wick expansion: termination and leaf shape -/

theorem splitViol_some : ∀ {ops pre post : List Operator} {x y : Operator},
    splitViol ops = some (pre, x, y, post) →
    ops = pre ++ x :: y :: post ∧ x.kind = OperatorKind.creation ∧
      y.kind = OperatorKind.annihilation := by
  intro ops
  induction ops with
  | nil => intro pre post x y h; simp [splitViol] at h
  | cons a l ih =>
    intro pre post x y h
    cases l with
    | nil => simp [splitViol] at h
    | cons b rest =>
      simp only [splitViol] at h
      by_cases hc : a.kind = OperatorKind.creation ∧
          b.kind = OperatorKind.annihilation
      · rw [if_pos hc] at h
        simp only [Option.some.injEq, Prod.mk.injEq] at h
        obtain ⟨h1, h2, h3, h4⟩ := h
        subst h1; subst h2; subst h3; subst h4
        simpa using hc
      · rw [if_neg hc] at h
        rcases hs : splitViol (b :: rest) with _ | r
        · rw [hs] at h; simp at h
        · rw [hs] at h
          simp only [Option.map_some', Option.some.injEq] at h
          obtain ⟨r1, r2, r3, r4⟩ := r
          simp only [Prod.mk.injEq] at h
          obtain ⟨h1, h2, h3, h4⟩ := h
          obtain ⟨he, hx, hy⟩ := ih hs
          subst h2; subst h3; subst h4
          refine ⟨?_, hx, hy⟩
          rw [← h1]
          simp [he]

theorem countAnn_append (l m : List Operator) :
    countAnn (l ++ m) = countAnn l + countAnn m := by
  simp [countAnn, List.filter_append]

theorem countAnn_cons (a : Operator) (l : List Operator) :
    countAnn (a :: l) =
      (if a.kind = OperatorKind.annihilation then 1 else 0) + countAnn l := by
  simp only [countAnn, List.filter_cons]
  by_cases h : a.kind = OperatorKind.annihilation
  · simp [h]
    omega
  · simp [h]

/-- Number of creation operators in a string. -/
def countCre (l : List Operator) : Nat :=
  (l.filter (fun b => decide (b.kind = OperatorKind.creation))).length

theorem countCre_cons (a : Operator) (l : List Operator) :
    countCre (a :: l) =
      (if a.kind = OperatorKind.creation then 1 else 0) + countCre l := by
  simp only [countCre, List.filter_cons]
  by_cases h : a.kind = OperatorKind.creation
  · simp [h]
    omega
  · simp [h]

theorem invCount_append (l m : List Operator) :
    invCount (l ++ m) = invCount l + invCount m + countCre l * countAnn m := by
  induction l with
  | nil => simp [invCount, countCre, countAnn]
  | cons a l ih =>
    rw [List.cons_append]
    have hcons : ∀ (b : Operator) (k : List Operator), invCount (b :: k) =
        (if b.kind = OperatorKind.creation then countAnn k else 0) + invCount k :=
      fun b k => rfl
    rw [hcons, hcons, countAnn_append, ih, countCre_cons]
    by_cases h : a.kind = OperatorKind.creation
    · simp only [h, if_true]
      ring
    · simp only [h, if_false]
      ring

theorem kind_not_ann {x : Operator} (h : x.kind = OperatorKind.creation) :
    ¬x.kind = OperatorKind.annihilation := by
  rw [h]
  intro hc
  cases hc

theorem invCount_swap {x y : Operator} (hx : x.kind = OperatorKind.creation)
    (hy : y.kind = OperatorKind.annihilation) (pre post : List Operator) :
    invCount (pre ++ y :: x :: post) + 1 = invCount (pre ++ x :: y :: post) := by
  rw [invCount_append, invCount_append]
  have h1 : countAnn (y :: x :: post) = countAnn (x :: y :: post) := by
    rw [countAnn_cons, countAnn_cons, countAnn_cons, countAnn_cons]
    omega
  have h2 : invCount (y :: x :: post) + 1 = invCount (x :: y :: post) := by
    have hyc : ¬y.kind = OperatorKind.creation := by
      rw [hy]; intro hc; cases hc
    simp [invCount, countAnn_cons, hx, hy, hyc, kind_not_ann hx]
    omega
  rw [h1]
  omega

theorem invCount_contract {x y : Operator} (hx : x.kind = OperatorKind.creation)
    (hy : y.kind = OperatorKind.annihilation) (pre post : List Operator) :
    invCount (pre ++ post) + 1 ≤ invCount (pre ++ x :: y :: post) := by
  rw [invCount_append, invCount_append]
  have h1 : countAnn post ≤ countAnn (x :: y :: post) := by
    rw [countAnn_cons, countAnn_cons]
    omega
  have h2 : invCount post + 1 ≤ invCount (x :: y :: post) := by
    have hyc : ¬y.kind = OperatorKind.creation := by
      rw [hy]; intro hc; cases hc
    simp [invCount, countAnn_cons, hx, hy, hyc]
    omega
  have h3 := Nat.mul_le_mul_left (countCre pre) h1
  omega

theorem splitViol_none_all_cre : ∀ {a : Operator} {l : List Operator},
    splitViol (a :: l) = none → a.kind = OperatorKind.creation →
    ∀ b ∈ l, b.kind = OperatorKind.creation := by
  intro a l
  induction l generalizing a with
  | nil => intro _ _ b hb; exact absurd hb (List.not_mem_nil b)
  | cons b rest ih =>
    intro h ha c hc
    simp only [splitViol] at h
    by_cases hcond : a.kind = OperatorKind.creation ∧
        b.kind = OperatorKind.annihilation
    · rw [if_pos hcond] at h
      exact absurd h (by simp)
    · rw [if_neg hcond] at h
      have hs : splitViol (b :: rest) = none := by
        rcases hx : splitViol (b :: rest) with _ | r
        · rfl
        · rw [hx] at h; simp at h
      have hb : b.kind = OperatorKind.creation := by
        rcases hk : b.kind with _ | _
        · rfl
        · exact absurd ⟨ha, hk⟩ hcond
      rcases List.mem_cons.mp hc with rfl | hc'
      · exact hb
      · exact ih hs hb c hc'

theorem countAnn_eq_zero {l : List Operator}
    (h : ∀ b ∈ l, b.kind = OperatorKind.creation) : countAnn l = 0 := by
  unfold countAnn
  rw [List.length_eq_zero]
  rw [List.filter_eq_nil]
  intro b hb
  simp [h b hb]

theorem splitViol_none_inv : ∀ {l : List Operator},
    splitViol l = none → invCount l = 0 := by
  intro l
  induction l with
  | nil => intro _; rfl
  | cons a l ih =>
    intro h
    cases l with
    | nil =>
      simp [invCount, countAnn]
    | cons b rest =>
      simp only [splitViol] at h
      by_cases hcond : a.kind = OperatorKind.creation ∧
          b.kind = OperatorKind.annihilation
      · rw [if_pos hcond] at h
        exact absurd h (by simp)
      · rw [if_neg hcond] at h
        have hs : splitViol (b :: rest) = none := by
          rcases hx : splitViol (b :: rest) with _ | r
          · rfl
          · rw [hx] at h; simp at h
        have htail := ih hs
        show (if a.kind = OperatorKind.creation then countAnn (b :: rest) else 0)
          + invCount (b :: rest) = 0
        rw [htail]
        rcases hk : a.kind with hc | _
        · rw [if_pos rfl]
          have hb : b.kind = OperatorKind.creation := by
            rcases hkb : b.kind with _ | _
            · rfl
            · exact absurd ⟨hk, hkb⟩ hcond
          have hall : ∀ c ∈ b :: rest, c.kind = OperatorKind.creation := by
            intro c hc
            rcases List.mem_cons.mp hc with rfl | hc'
            · exact hb
            · exact splitViol_none_all_cre hs hb c hc'
          rw [countAnn_eq_zero hall]
        · simp

theorem countAnn_pos {l : List Operator} {y : Operator} (hy : y ∈ l)
    (hk : y.kind = OperatorKind.annihilation) : 1 ≤ countAnn l := by
  unfold countAnn
  have : y ∈ l.filter (fun b => decide (b.kind = OperatorKind.annihilation)) :=
    List.mem_filter.mpr ⟨hy, by simp [hk]⟩
  exact List.length_pos.mpr (List.ne_nil_of_mem this)

theorem invCount_pos_of_collision {l : List Operator}
    (h : hasBosonCollision l = true) : 1 ≤ invCount l := by
  obtain ⟨l₁, x, l₂, rfl, _, hk, y, hy, hyk, _⟩ := hasBosonCollision_iff.mp h
  rw [invCount_append]
  have h1 : 1 ≤ invCount (x :: l₂) := by
    show 1 ≤ (if x.kind = OperatorKind.creation then countAnn l₂ else 0)
      + invCount l₂
    rw [if_pos hk]
    have := countAnn_pos hy hyk
    omega
  omega

theorem expandOps_succeeds (onlySame : Bool) : ∀ (fuel : Nat) (c : ℚ)
    (T : List TensorFactor) (ops : List Operator),
    invCount ops + ops.length < fuel →
    ∃ l, expandOps onlySame fuel c T ops = some l := by
  intro fuel
  induction fuel with
  | zero => intro c T ops h; omega
  | succ fuel ih =>
    intro c T ops h
    rcases hs : splitViol ops with _ | ⟨pre, x, y, post⟩
    · exact ⟨[⟨c, T, ops⟩], by simp [expandOps, hs]⟩
    · obtain ⟨he, hx, hy⟩ := splitViol_some hs
      subst he
      have hswap := invCount_swap hx hy pre post
      have hlen : (pre ++ y :: x :: post).length =
          (pre ++ x :: y :: post).length := by simp
      have hm1 : invCount (pre ++ y :: x :: post) +
          (pre ++ y :: x :: post).length < fuel := by omega
      obtain ⟨l1, h1⟩ := ih (mulSign (swapSign x y) c) T _ hm1
      by_cases hc : contractible x y onlySame = true
      · have hct := invCount_contract hx hy pre post
        have hlen2 : (pre ++ post).length + 2 =
            (pre ++ x :: y :: post).length := by
          simp
          omega
        have hm2 : invCount (pre ++ post) + (pre ++ post).length < fuel := by
          omega
        obtain ⟨l2, h2⟩ := ih (mulSign (contrSign x) c)
          (if x.index = y.index then T else T ++ [deltaTensor x y]) _ hm2
        refine ⟨l1 ++ l2, ?_⟩
        simp only [expandOps, hs, hc, if_true, h1, h2]
      · refine ⟨l1, ?_⟩
        simp only [expandOps, hs]
        rw [if_neg hc]
        exact h1

theorem expandOps_fuel_irrel (onlySame : Bool) : ∀ (f1 f2 : Nat) (c : ℚ)
    (T : List TensorFactor) (ops : List Operator),
    invCount ops + ops.length < f1 → invCount ops + ops.length < f2 →
    expandOps onlySame f1 c T ops = expandOps onlySame f2 c T ops := by
  intro f1
  induction f1 with
  | zero => intro f2 c T ops h1 h2; omega
  | succ f1 ih =>
    intro f2 c T ops h1 h2
    cases f2 with
    | zero => omega
    | succ f2 =>
      rcases hs : splitViol ops with _ | ⟨pre, x, y, post⟩
      · simp [expandOps, hs]
      · obtain ⟨he, hx, hy⟩ := splitViol_some hs
        subst he
        have hswap := invCount_swap hx hy pre post
        have hlen : (pre ++ y :: x :: post).length =
            (pre ++ x :: y :: post).length := by simp
        have hm1 : invCount (pre ++ y :: x :: post) +
            (pre ++ y :: x :: post).length < f1 := by omega
        have hm1' : invCount (pre ++ y :: x :: post) +
            (pre ++ y :: x :: post).length < f2 := by omega
        have e1 := ih f2 (mulSign (swapSign x y) c) T _ hm1 hm1'
        by_cases hc : contractible x y onlySame = true
        · have hct := invCount_contract hx hy pre post
          have hlen2 : (pre ++ post).length + 2 =
              (pre ++ x :: y :: post).length := by
            simp
            omega
          have hm2 : invCount (pre ++ post) + (pre ++ post).length < f1 := by
            omega
          have hm2' : invCount (pre ++ post) + (pre ++ post).length < f2 := by
            omega
          have e2 := ih f2 (mulSign (contrSign x) c)
            (if x.index = y.index then T else T ++ [deltaTensor x y]) _ hm2 hm2'
          simp only [expandOps, hs, hc, if_true]
          rw [e1, e2]
        · simp only [expandOps, hs]
          rw [if_neg hc, if_neg hc, e1]

theorem expandOps_leaves (onlySame : Bool) : ∀ (fuel : Nat) (c : ℚ)
    (T : List TensorFactor) (ops : List Operator) (l : List SymbolicTerm),
    expandOps onlySame fuel c T ops = some l →
    ∀ u ∈ l, invCount u.ops = 0 := by
  intro fuel
  induction fuel with
  | zero => intro c T ops l h; simp [expandOps] at h
  | succ fuel ih =>
    intro c T ops l h u hu
    rcases hs : splitViol ops with _ | ⟨pre, x, y, post⟩
    · simp only [expandOps, hs, Option.some.injEq] at h
      rw [← h] at hu
      simp only [List.mem_singleton] at hu
      subst hu
      exact splitViol_none_inv hs
    · simp only [expandOps, hs] at h
      by_cases hc : contractible x y onlySame = true
      · rw [if_pos hc] at h
        rcases h1 : expandOps onlySame fuel (mulSign (swapSign x y) c) T
            (pre ++ y :: x :: post) with _ | l1 <;> rw [h1] at h
        · exact absurd h (by simp)
        · rcases h2 : expandOps onlySame fuel (mulSign (contrSign x) c)
              (if x.index = y.index then T else T ++ [deltaTensor x y])
              (pre ++ post) with _ | l2 <;> rw [h2] at h
          · exact absurd h (by simp)
          · simp only [Option.some.injEq] at h
            rw [← h] at hu
            rcases List.mem_append.mp hu with hu' | hu'
            · exact ih _ _ _ _ h1 u hu'
            · exact ih _ _ _ _ h2 u hu'
      · rw [if_neg hc] at h
        exact ih _ _ _ _ h u hu

theorem wickTerm_eq (onlySame : Bool) (t : SymbolicTerm) :
    ∃ l, expandOps onlySame (invCount t.ops + t.ops.length + 1) t.coeff
        t.tensors t.ops = some l ∧ wickTerm onlySame t = l := by
  obtain ⟨l, hl⟩ := expandOps_succeeds onlySame
    (invCount t.ops + t.ops.length + 1) t.coeff t.tensors t.ops (by omega)
  exact ⟨l, hl, by simp [wickTerm, hl]⟩

theorem wickTerm_inv (onlySame : Bool) (t : SymbolicTerm) :
    ∀ u ∈ wickTerm onlySame t, invCount u.ops = 0 := by
  obtain ⟨l, hl, he⟩ := wickTerm_eq onlySame t
  rw [he]
  exact expandOps_leaves onlySame _ _ _ _ _ hl

theorem hasBosonCollision_of_inv_zero {l : List Operator}
    (h : invCount l = 0) : hasBosonCollision l = false := by
  rcases hb : hasBosonCollision l with _ | _
  · rfl
  · have := invCount_pos_of_collision hb
    omega

theorem canonTerms_some_of_no_collision : {l : List SymbolicTerm} →
    (∀ t ∈ l, hasBosonCollision t.ops = false) →
    ∃ l', canonTerms l = some l' := by
  intro l h
  induction l with
  | nil => exact ⟨[], rfl⟩
  | cons t l ih =>
    obtain ⟨l', hl'⟩ := ih (fun u hu => h u (List.mem_cons_of_mem t hu))
    refine ⟨⟨if hasPauli t.ops = true then 0 else mulSignZ (canonCore t).1 t.coeff,
      (canonCore t).2.1, (canonCore t).2.2⟩ :: l', ?_⟩
    simp only [canonTerms, canonTerm_of_no_collision (h t (by simp)), hl']

theorem canonicalize_eq_of_canonTerms {E : Expression}
    {l : List SymbolicTerm} (h : canonTerms E.terms = some l) :
    E.canonicalize = some ⟨dropZeros (mergeRuns (sortTerms (dropZeros l)))⟩ := by
  unfold Expression.canonicalize
  rw [h]
  rfl

/-- The Wick expansion followed by canonicalization never hits the §7
rejection: `vacuum_normal_ordered` equals the canonical form of the flattened
leaves. -/
theorem vno_spec (E : Expression) (onlySame : Bool) :
    ∃ E', (⟨(E.terms.map (wickTerm onlySame)).flatten⟩ : Expression).canonicalize
        = some E' ∧ E.vacuum_normal_ordered onlySame = E' := by
  have hall : ∀ t ∈ (E.terms.map (wickTerm onlySame)).flatten,
      hasBosonCollision t.ops = false := by
    intro t ht
    obtain ⟨ws, hws, htw⟩ := List.mem_flatten.mp ht
    obtain ⟨t0, _, rfl⟩ := List.mem_map.mp hws
    exact hasBosonCollision_of_inv_zero (wickTerm_inv onlySame t0 t htw)
  obtain ⟨l', hl'⟩ := canonTerms_some_of_no_collision hall
  have hc := @canonicalize_eq_of_canonTerms
    ⟨(E.terms.map (wickTerm onlySame)).flatten⟩ l' hl'
  refine ⟨_, hc, ?_⟩
  unfold Expression.vacuum_normal_ordered
  simp only [hc, Option.getD_some]

theorem canonTerm_ops_sorted {t u : SymbolicTerm} (h : canonTerm t = some u) :
    u.ops.Sorted OpLeR := by
  unfold canonTerm at h
  by_cases hbc : hasBosonCollision t.ops = true
  · rw [if_pos hbc] at h
    exact absurd h (by simp)
  · rw [if_neg hbc] at h
    simp only [Option.some.injEq] at h
    rw [← h]
    exact canonCore_ops_sorted t

theorem opLe_cre_ann_false {a b : Operator}
    (ha : a.kind = OperatorKind.creation)
    (hb : b.kind = OperatorKind.annihilation)
    (hf : b.index.field = a.index.field) : opLe a b = false := by
  unfold opLe Operator.key
  rw [ha, hb, hf]
  simp [natListLe, natListLt, OperatorKind.rank]

theorem opsVacuumOrdered_of_sorted {l : List Operator}
    (h : l.Sorted OpLeR) : opsVacuumOrdered l = true := by
  induction l with
  | nil => rfl
  | cons a l ih =>
    show (_ && _) = true
    rw [Bool.and_eq_true]
    refine ⟨?_, ih (List.sorted_cons.mp h).2⟩
    by_cases hk : a.kind = OperatorKind.creation
    · rw [if_pos hk, List.all_eq_true]
      intro b hb
      rcases hba : b.kind with _ | _
      · simp [hba]
      · by_cases hbf : b.index.field = a.index.field
        · exfalso
          have hle : opLe a b = true := (List.sorted_cons.mp h).1 b hb
          rw [opLe_cre_ann_false hk hba hbf] at hle
          exact absurd hle (by simp)
        · simp [hba, hbf]
    · rw [if_neg hk]

theorem is_vno_of_canonicalize {E E' : Expression}
    (h : E.canonicalize = some E') : E'.is_vacuum_normal_ordered = true := by
  obtain ⟨hfix, _⟩ := canonicalize_out_fixed h
  unfold Expression.is_vacuum_normal_ordered
  rw [List.all_eq_true]
  intro t ht
  exact opsVacuumOrdered_of_sorted (canonTerm_ops_sorted (hfix t ht).1)

/-! ## Many-body equation export (§6, C8)

`to_manybody_equation(label)` groups a canonical Expression's terms by the
rank signature of the named output tensor.  For a normal-ordered term the
output tensor carries one upper index per creation operator and one lower
index per annihilation operator, so the rank signature records the counts of
creation and annihilation operators per space type; the `label` argument only
names the resultant tensor and does not influence the grouping. -/

/-- Count of operators of one kind acting in one space in a term. -/
def countOps (t : SymbolicTerm) (k : OperatorKind) (s : SpaceType) : Nat :=
  (t.ops.filter (fun o => decide (o.kind = k) && decide (o.index.space = s))).length

/-- Modelled from the spec (§3 Equation, §6): the rank-signature key of a
term — counts of upper (creation) and lower (annihilation) indices per
subspace. -/
def rankSignature (t : SymbolicTerm) : String :=
  String.intercalate "|"
    ([SpaceType.occupied, SpaceType.unoccupied, SpaceType.general].map
      (fun s => Nat.repr (countOps t OperatorKind.creation s) ++ "," ++
        Nat.repr (countOps t OperatorKind.annihilation s)))

/-- Append a term to the bucket of its key, creating the bucket if absent. -/
def addBucket (key : String) (t : SymbolicTerm) :
    List (String × List SymbolicTerm) → List (String × List SymbolicTerm)
  | [] => [(key, [t])]
  | (k, ts) :: rest =>
    if k = key then (k, ts ++ [t]) :: rest else (k, ts) :: addBucket key t rest

/-- Modelled from the spec (§6): group the terms of a (canonical) Expression
into rank-signature buckets; the result models the
`map<string, vector<Equation>>` of `expression.h`. -/
def Expression.to_manybody_equation (label : String) (E : Expression) :
    List (String × List SymbolicTerm) :=
  E.terms.foldl (fun acc t => addBucket (rankSignature t) t acc) []

open List in
theorem addBucket_flatten (key : String) (t : SymbolicTerm)
    (acc : List (String × List SymbolicTerm)) :
    (((addBucket key t acc).map Prod.snd).flatten).Perm
      ((acc.map Prod.snd).flatten ++ [t]) := by
  induction acc with
  | nil => simp [addBucket]
  | cons p rest ih =>
    obtain ⟨k, ts⟩ := p
    by_cases h : k = key
    · subst h
      have hb : addBucket k t ((k, ts) :: rest) = (k, ts ++ [t]) :: rest := by
        simp [addBucket]
      rw [hb]
      simp only [List.map_cons, List.flatten_cons]
      rw [List.append_assoc, List.append_assoc]
      exact (@List.perm_append_comm _ [t]
        ((rest.map Prod.snd).flatten)).append_left ts
    · simp only [addBucket, h, if_false, List.map_cons, List.flatten_cons]
      rw [List.append_assoc]
      exact ih.append_left ts

open List in
theorem to_manybody_flatten (label : String) (E : Expression) :
    ((((E.to_manybody_equation label).map Prod.snd).flatten)).Perm E.terms := by
  suffices h : ∀ (l : List SymbolicTerm) (acc : List (String × List SymbolicTerm)),
      (((l.foldl (fun acc t => addBucket (rankSignature t) t acc) acc).map
        Prod.snd).flatten).Perm ((acc.map Prod.snd).flatten ++ l) by
    have h2 := h E.terms []
    simpa [Expression.to_manybody_equation] using h2
  intro l
  induction l with
  | nil => intro acc; simp
  | cons t l ih =>
    intro acc
    have h1 := ih (addBucket (rankSignature t) t acc)
    have h2 := (addBucket_flatten (rankSignature t) t acc).append_right l
    have h3 : ((acc.map Prod.snd).flatten ++ [t]) ++ l =
        (acc.map Prod.snd).flatten ++ t :: l := by
      rw [List.append_assoc]
      rfl
    rw [h3] at h2
    exact h1.trans h2

theorem addBucket_keys_eq {key : String} {t : SymbolicTerm}
    {acc : List (String × List SymbolicTerm)} :
    ((addBucket key t acc).map Prod.fst) =
      if key ∈ acc.map Prod.fst then acc.map Prod.fst
      else acc.map Prod.fst ++ [key] := by
  induction acc with
  | nil => simp [addBucket]
  | cons p rest ih =>
    obtain ⟨k, ts⟩ := p
    by_cases h : k = key
    · subst h
      simp [addBucket]
    · simp only [addBucket, h, if_false, List.map_cons]
      have hne : ¬key = k := fun hc => h hc.symm
      by_cases hmem : key ∈ rest.map Prod.fst
      · rw [if_pos (by simp [hmem]), ih, if_pos hmem]
      · rw [if_neg (by simp [hne, hmem]), ih, if_neg hmem]
        simp

theorem addBucket_keys_nodup {key : String} {t : SymbolicTerm}
    {acc : List (String × List SymbolicTerm)}
    (h1 : (acc.map Prod.fst).Nodup) :
    ((addBucket key t acc).map Prod.fst).Nodup := by
  rw [addBucket_keys_eq]
  by_cases hmem : key ∈ acc.map Prod.fst
  · rw [if_pos hmem]
    exact h1
  · rw [if_neg hmem]
    refine List.Nodup.append h1 (List.nodup_singleton key) ?_
    intro a ha hb
    simp only [List.mem_singleton] at hb
    subst hb
    exact hmem ha

theorem addBucket_contents {key : String} {t : SymbolicTerm}
    {acc : List (String × List SymbolicTerm)}
    (h2 : ∀ p ∈ acc, ∀ u ∈ p.2, rankSignature u = p.1)
    (hkey : rankSignature t = key) :
    ∀ p ∈ addBucket key t acc, ∀ u ∈ p.2, rankSignature u = p.1 := by
  induction acc with
  | nil =>
    intro p hp u hu
    simp only [addBucket, List.mem_singleton] at hp
    subst hp
    simp only [List.mem_singleton] at hu
    subst hu
    exact hkey
  | cons q rest ih =>
    obtain ⟨k, ts⟩ := q
    intro p hp u hu
    by_cases h : k = key
    · subst h
      simp only [addBucket, if_pos rfl] at hp
      rcases List.mem_cons.mp hp with rfl | hp'
      · rcases List.mem_append.mp hu with hu' | hu'
        · exact h2 (k, ts) (by simp) u hu'
        · simp only [List.mem_singleton] at hu'
          subst hu'
          exact hkey
      · exact h2 p (List.mem_cons_of_mem _ hp') u hu
    · simp only [addBucket, h, if_false] at hp
      rcases List.mem_cons.mp hp with rfl | hp'
      · exact h2 (k, ts) (by simp) u hu
      · exact ih (fun q hq => h2 q (List.mem_cons_of_mem _ hq)) p hp' u hu

/-- The bucket invariant: keys are distinct, and every term sits in the
bucket of its own rank signature (hence no term belongs to two buckets). -/
theorem to_manybody_invariant (label : String) (E : Expression) :
    ((E.to_manybody_equation label).map Prod.fst).Nodup ∧
      ∀ p ∈ E.to_manybody_equation label, ∀ u ∈ p.2, rankSignature u = p.1 := by
  suffices h : ∀ (l : List SymbolicTerm) (acc : List (String × List SymbolicTerm)),
      (acc.map Prod.fst).Nodup →
      (∀ p ∈ acc, ∀ u ∈ p.2, rankSignature u = p.1) →
      ((l.foldl (fun acc t => addBucket (rankSignature t) t acc) acc).map
          Prod.fst).Nodup ∧
        ∀ p ∈ l.foldl (fun acc t => addBucket (rankSignature t) t acc) acc,
          ∀ u ∈ p.2, rankSignature u = p.1 by
    exact h E.terms [] (by simp) (by simp)
  intro l
  induction l with
  | nil => intro acc h1 h2; exact ⟨h1, h2⟩
  | cons t l ih =>
    intro acc h1 h2
    exact ih _ (addBucket_keys_nodup h1) (addBucket_contents h2 rfl)

/-! ## OperatorProduct canonicalization (§4.1) -/

/-- Modelled from the spec (§4.1): `OperatorProduct::canonicalize` — a Pauli
collision (two identical fermionic operators) returns the scalar 0 and
short-circuits; an out-of-order bosonic pair with equal index is rejected
(§7 *ambiguous-contraction*, policy of §9); otherwise the string is sorted by
adjacent transpositions and the accumulated sign is returned. -/
def OperatorProduct.canonicalize (ops : List Operator) :
    Option (ℚ × List Operator) :=
  if hasPauli ops then some (0, ops)
  else if hasBosonCollision ops then none
  else
    let r := sortOpsSigned ops
    some (mulSign r.1 1, r.2)

/-- `OperatorProduct::num_ops`: the sequence length. -/
def OperatorProduct.num_ops (ops : List Operator) : Nat := ops.length

/-! ## Concrete inputs used by the example scenarios -/

/-- A general-space fermionic index `p`. -/
def idx_p : Index := ⟨'p', 0, FieldType.fermion, SpaceType.general⟩

/-- A second general-space fermionic index `q` (same subspace as `p`). -/
def idx_q : Index := ⟨'p', 1, FieldType.fermion, SpaceType.general⟩

/-- The single-term expression `a†_p a_q` of the §8 example scenario. -/
def exampleExpr : Expression :=
  ⟨[⟨1, [], [⟨OperatorKind.creation, idx_p⟩,
             ⟨OperatorKind.annihilation, idx_q⟩]⟩]⟩

/-! ## The claims -/

/-- C1 (amended): for every Expression `E`,
`E.vacuum_normal_ordered(b).is_vacuum_normal_ordered()` is true — the check
verifying that no *creation* operator precedes an *annihilation* operator of
the same field type, per the engine's vacuum convention (annihilation left of
creation, `expression.h`). -/
theorem C1_normal_order_closure (E : Expression) (b : Bool) :
    (E.vacuum_normal_ordered b).is_vacuum_normal_ordered = true := by
  obtain ⟨E', hc, he⟩ := vno_spec E b
  rw [he]
  exact is_vno_of_canonicalize hc

/-- C1 counterexample: on `a†_p a_q` the result of `vacuum_normal_ordered`
passes `is_vacuum_normal_ordered` yet contains the term `-a_q a†_p`, whose
operator string has an annihilation operator *preceding* a creation operator;
the claim's description of the check (no annihilation before a creation) is
therefore false of the engine's convention, which is the reverse. -/
theorem C1_counterexample :
    (exampleExpr.vacuum_normal_ordered false).is_vacuum_normal_ordered = true ∧
      (exampleExpr.vacuum_normal_ordered false).terms.all
        (fun t => opsNoAnnBeforeCre t.ops) = false := by
  constructor
  · decide
  · decide

/-- C2: `Expression::canonicalize` is idempotent — canonicalizing a second
time yields an Expression equal, under `operator==`, to the result of
canonicalizing once. -/
theorem C2_canonicalize_idempotent {E E₁ E₂ : Expression}
    (h1 : E.canonicalize = some E₁) (h2 : E₁.canonicalize = some E₂) :
    E₂.eqExpr E₁ = true := by
  have hidem := canonicalize_idem h1
  rw [hidem] at h2
  simp only [Option.some.injEq] at h2
  subst h2
  unfold Expression.eqExpr
  rw [hidem]
  simp

theorem C2_witness : Expression.eqExpr ⟨[]⟩ ⟨[]⟩ = true :=
  @C2_canonicalize_idempotent ⟨[]⟩ ⟨[]⟩ ⟨[]⟩ rfl rfl

/-- C3: an OperatorProduct containing two fermionic operators with identical
Index and identical kind canonicalizes to the scalar 0 (Pauli exclusion),
short-circuiting (the string is returned unsorted). -/
theorem C3_pauli_exclusion {l₁ l₂ l₃ : List Operator} {a : Operator}
    (hf : a.index.field = FieldType.fermion) :
    OperatorProduct.canonicalize (l₁ ++ a :: l₂ ++ a :: l₃) =
      some (0, l₁ ++ a :: l₂ ++ a :: l₃) := by
  have hcount : 2 ≤ (l₁ ++ a :: l₂ ++ a :: l₃).count a := by
    rw [List.count_append, List.count_append, List.count_cons_self,
      List.count_cons_self]
    omega
  have hp : hasPauli (l₁ ++ a :: l₂ ++ a :: l₃) = true :=
    hasPauli_iff.mpr ⟨a, hf, hcount⟩
  unfold OperatorProduct.canonicalize
  rw [if_pos hp]

theorem C3_witness :
    OperatorProduct.canonicalize
      [⟨OperatorKind.creation, idx_p⟩, ⟨OperatorKind.creation, idx_p⟩] =
      some (0, [⟨OperatorKind.creation, idx_p⟩,
                ⟨OperatorKind.creation, idx_p⟩]) :=
  @C3_pauli_exclusion [] [] [] ⟨OperatorKind.creation, idx_p⟩ (by decide)

/-- C4: the §8 example scenario — `a†_p a_q` (p, q general-space fermionic
indices) under `vacuum_normal_ordered(false)` yields exactly the two
canonical terms `δ_pq` (Kronecker-delta contraction, a pure-tensor term) and
`-a_q a†_p`. -/
theorem C4_example_scenario :
    exampleExpr.vacuum_normal_ordered false =
      ⟨[⟨1, [⟨'d', SymmetryType.nonsymmetric, [idx_p], [idx_q]⟩], []⟩,
        ⟨-1, [], [⟨OperatorKind.annihilation, idx_q⟩,
                  ⟨OperatorKind.creation, idx_p⟩]⟩]⟩ := by
  decide

/-- C5: after `Expression::canonicalize`, no two terms share the same
canonical (tensor-factor pattern, operator string) signature, no term has an
exactly zero coefficient, and the terms are sorted by the total order over
(operator-string canonical key, tensor-factor canonical key). -/
theorem C5_canonical_invariant {E E' : Expression}
    (h : E.canonicalize = some E') :
    E'.terms.Pairwise (fun s t => termSig s ≠ termSig t) ∧
      (∀ t ∈ E'.terms, t.coeff ≠ 0) ∧
      E'.terms.Sorted TermLeR := by
  obtain ⟨hfix, hpw⟩ := canonicalize_out_fixed h
  exact ⟨hpw.imp (fun hab => termSig_ne_of_lt hab),
    fun t ht => (hfix t ht).2,
    hpw.imp (fun hab => termLe_of_lt hab)⟩

theorem C5_witness :
    (⟨[]⟩ : Expression).terms.Pairwise (fun s t => termSig s ≠ termSig t) ∧
      (∀ t ∈ (⟨[]⟩ : Expression).terms, t.coeff ≠ 0) ∧
      (⟨[]⟩ : Expression).terms.Sorted TermLeR :=
  @C5_canonical_invariant ⟨[]⟩ ⟨[]⟩ rfl

/-- C6: `operator==` returns true for two Expressions iff their canonical
forms are term-for-term identical; the comparison works on canonicalized
copies, leaving both operands unchanged (the method-call model returns the
receivers unmodified). -/
theorem C6_equality {a b a' b' : Expression}
    (ha : a.canonicalize = some a') (hb : b.canonicalize = some b') :
    (a.eqExpr b = true ↔ a'.terms = b'.terms) ∧
      ((a, b), a.eqExpr b).1 = (a, b) := by
  refine ⟨?_, rfl⟩
  unfold Expression.eqExpr
  rw [ha, hb]
  simp

theorem C6_witness :
    ((⟨[]⟩ : Expression).eqExpr ⟨[]⟩ = true ↔
      (⟨[]⟩ : Expression).terms = (⟨[]⟩ : Expression).terms) :=
  (@C6_equality ⟨[]⟩ ⟨[]⟩ ⟨[]⟩ ⟨[]⟩ rfl rfl).1

/-- C7: the adjoint is an involution — applying `adjoint()` twice and
canonicalizing yields exactly the canonicalization of the original
Expression (over the exact rational scalars, conjugation is the identity,
so this holds for every Expression, in particular the self-adjoint-compatible
ones); and `adjoint()` itself only reverses each operator string and flips
each kind, without auto-canonicalizing. -/
theorem C7_adjoint_involution (E : Expression) :
    E.adjoint.adjoint.canonicalize = E.canonicalize ∧
      E.adjoint = ⟨E.terms.map (fun t =>
        ⟨t.coeff, t.tensors, (t.ops.map Operator.adjoint).reverse⟩)⟩ := by
  constructor
  · rw [exprAdjoint_invol]
  · rfl

/-- C8: the buckets of `to_manybody_equation(label)` partition the terms of
the canonicalized source Expression: their union is a permutation (multiset
equality) of the canonical term list, bucket keys are pairwise distinct, and
every term lies in the bucket of its own rank signature — so no term is
dropped and none appears in more than one bucket. -/
theorem C8_partition {E E' : Expression} (h : E.canonicalize = some E')
    (label : String) :
    ((((E'.to_manybody_equation label).map Prod.snd).flatten)).Perm E'.terms ∧
      ((E'.to_manybody_equation label).map Prod.fst).Nodup ∧
      ∀ p ∈ E'.to_manybody_equation label, ∀ u ∈ p.2,
        rankSignature u = p.1 :=
  ⟨to_manybody_flatten label E', (to_manybody_invariant label E').1,
    (to_manybody_invariant label E').2⟩

theorem C8_witness :
    (((((⟨[]⟩ : Expression).to_manybody_equation "r").map
      Prod.snd).flatten)).Perm (⟨[]⟩ : Expression).terms :=
  (@C8_partition ⟨[]⟩ ⟨[]⟩ rfl "r").1

/-- C9: `vacuum_normal_ordered` terminates on every input — the Wick
expansion of each term completes within the combinatorial fuel bound
`invCount + length + 1` (so it is finite, bounded by the operator string
length), the result does not depend on any larger fuel, and the whole
`vacuum_normal_ordered` pipeline produces its (canonicalized) value. -/
theorem C9_termination (b : Bool) (E : Expression) (t : SymbolicTerm)
    (fuel : Nat) (h : invCount t.ops + t.ops.length < fuel) :
    (expandOps b fuel t.coeff t.tensors t.ops).isSome = true ∧
      expandOps b fuel t.coeff t.tensors t.ops =
        expandOps b (invCount t.ops + t.ops.length + 1) t.coeff t.tensors
          t.ops ∧
      ∃ E', (⟨(E.terms.map (wickTerm b)).flatten⟩ : Expression).canonicalize
          = some E' ∧ E.vacuum_normal_ordered b = E' := by
  obtain ⟨l, hl⟩ := expandOps_succeeds b fuel t.coeff t.tensors t.ops h
  exact ⟨by simp [hl],
    expandOps_fuel_irrel b fuel _ t.coeff t.tensors t.ops h (by omega),
    vno_spec E b⟩

theorem C9_witness :
    (expandOps false 4 (1 : ℚ) []
      [⟨OperatorKind.creation, idx_p⟩,
       ⟨OperatorKind.annihilation, idx_q⟩]).isSome = true := by
  have h := C9_termination false exampleExpr
    ⟨1, [], [⟨OperatorKind.creation, idx_p⟩,
             ⟨OperatorKind.annihilation, idx_q⟩]⟩ 4 (by decide)
  exact h.1

/-- C10: `adjoint`, `vacuum_normal_ordered` and `is_vacuum_normal_ordered`
are `const` — the method-call model leaves the receiver unchanged and
returns the new value — while `canonicalize()` and `reindex()` mutate the
receiver in place and return the reference to it (the returned value is the
mutated receiver itself). -/
theorem C10_const_frame (E : Expression) (b : Bool)
    (m : List (Index × Index)) :
    (adjointMethod E).1 = E ∧ (adjointMethod E).2 = E.adjoint ∧
      (vacuumNormalOrderedMethod E b).1 = E ∧
      (vacuumNormalOrderedMethod E b).2 = E.vacuum_normal_ordered b ∧
      (isVacuumNormalOrderedMethod E).1 = E ∧
      (isVacuumNormalOrderedMethod E).2 = E.is_vacuum_normal_ordered ∧
      (canonicalizeMethod E).map Prod.fst = E.canonicalize ∧
      (canonicalizeMethod E).map Prod.snd = (canonicalizeMethod E).map Prod.fst ∧
      (reindexMethod m E).1 = E.reindex m ∧
      (reindexMethod m E).2 = (reindexMethod m E).1 := by
  refine ⟨rfl, rfl, rfl, rfl, rfl, rfl, ?_, ?_, rfl, rfl⟩
  · unfold canonicalizeMethod
    cases E.canonicalize <;> rfl
  · unfold canonicalizeMethod
    cases E.canonicalize <;> rfl
